import Mathlib

/-!
Verification development for the `find-large-dirs` directory-size scanner.

The embedding mirrors the primary program variant (the `v2.1` source, the
first program of `src/unnamed/part_000`): data structures (`FolderSize`),
helpers (`isExcluded`, `classifyExtension`, `parseSize`), the BFS traversal
`bfsScan`, and the post-pass `aggregateTotals`.  A second namespace `Dedup`
embeds the (dev, inode) duplicate-detecting variant of
`src/unnamed/part_003` (`bfsComputeSizes`).

Modelling conventions:
* Filesystem paths are lists of components; the empty list stands for the
  filesystem root "/".  `filepath.Join dir name` appends one component;
  `filepath.Dir` drops the last component (and maps "/" to itself), which is
  Go's behaviour on cleaned absolute paths.  `strings.Count(path, "/")` on a
  cleaned absolute path equals `max 1 (number of components)`.
* Go `int64` quantities are modelled as `Int` (no claim exercises overflow).
* `time.Time` values are modelled as `Nat`, with `0` as the zero time
  (`IsZero`), `<` as `Before` and `>` as `After`.
* Wall-clock reads are abstracted per directory entry: each entry carries
  the value `elapsed` that `time.Since(start)` yields at that entry's
  slow-threshold check.
* A Go `map` is an association list; lookup returns `Option`, insertion
  updates in place or appends.  Go map iteration order is unspecified and the
  program sorts the keys with the unstable `sort.Slice` before using them, so
  the embedding fixes one deterministic order consistent with the same sort
  key (descending separator count).
* `FolderSize.FileTypes` is `Option` of an association list: `none` models a
  nil Go map (writes to which would panic), `some` an allocated one.
-/

/-- A filesystem path as a list of components; `[]` is the root "/". -/
abbrev FPath := List String

/-- `filepath.Join dir name` for a single entry name: append one component. -/
def joinPath (dir : FPath) (name : String) : FPath := dir ++ [name]

/-- `filepath.Dir`: drop the final component; the root is its own parent. -/
def parentDir (p : FPath) : FPath := p.dropLast

/-- `strings.Count(path, string(os.PathSeparator))` for the cleaned absolute
path denoted by `p`: the root "/" contains one separator, `/a` one,
`/a/b` two, and so on. -/
def sepCount (p : FPath) : Nat := max 1 p.length

/-- Render a path for the string-based checks of the source
(`strings.HasPrefix` in `isExcluded`), as a character list:
`[] ↦ "/"`, `["a","b"] ↦ "/a/b"`. -/
def pathChars (p : FPath) : List Char :=
  '/' :: List.intercalate ['/'] (p.map String.data)

/-- `filepath.Base`: the last component, or "/" for the root. -/
def baseName (p : FPath) : String :=
  match p.getLast? with
  | some s => s
  | none => "/"

/-- ASCII lower-casing of one character (the only case mapping the source's
`strings.ToLower` calls exercise: basenames and file extensions). -/
def lowerChar (c : Char) : Char :=
  if 'A' ≤ c ∧ c ≤ 'Z' then Char.ofNat (c.toNat + 32) else c

/-- `strings.ToLower` on a character list. -/
def lowerL (l : List Char) : List Char := l.map lowerChar

/-- ASCII upper-casing of one character (for `strings.ToUpper` in
`parseSize`). -/
def upperChar (c : Char) : Char :=
  if 'a' ≤ c ∧ c ≤ 'z' then Char.ofNat (c.toNat - 32) else c

/-- `strings.ToUpper` on a character list. -/
def upperL (l : List Char) : List Char := l.map upperChar

/-- `strings.HasPrefix` on character lists. -/
def listPrefixOf : List Char → List Char → Bool
  | [], _ => true
  | _ :: _, [] => false
  | a :: as, b :: bs => a == b && listPrefixOf as bs

/-- File-type histogram: Go `map[string]int64` as an association list. -/
abbrev FT := List (String × Int)

/-- Read a histogram entry (Go map read: missing key yields the zero value). -/
def ftGet (m : FT) (k : String) : Int :=
  match m.find? (fun e => e.1 == k) with
  | some e => e.2
  | none => 0

/-- Go `m[k] += v`: update the entry in place, or insert it. -/
def ftAdd (m : FT) (k : String) (v : Int) : FT :=
  match m with
  | [] => [(k, v)]
  | e :: rest =>
    if e.1 == k then (e.1, e.2 + v) :: rest
    else e :: ftAdd rest k v

/-- Go `m[k] += v` through a possibly-nil map (`none`); a write to a nil map
would panic in Go, which the invariant of C9 shows never happens, so the
model makes the write absorbing on `none`. -/
def ftUpd (m : Option FT) (k : String) (v : Int) : Option FT :=
  match m with
  | none => none
  | some l => some (ftAdd l k v)

/-- `for c, s := range src { dst[c] += s }`: ranging over a nil map runs no
iterations, so a `none` source leaves `dst` unchanged. -/
def ftMerge (dst : Option FT) (src : Option FT) : Option FT :=
  match src with
  | none => dst
  | some l => l.foldl (fun d e => ftUpd d e.1 e.2) dst

/-- `FolderSize` of the v2.1 source: one record per visited path. -/
structure FolderSize where
  path : FPath
  size : Int
  total : Int
  fileCount : Int
  oldest : Nat
  newest : Nat
  skipped : Bool
  fileTypes : Option FT
deriving Repr, DecidableEq

/-- The freshly allocated record of the source's record-creation sites:
`&FolderSize{Path: p, FileTypes: map[string]int64{}}` (all other fields take
their zero values). -/
def newFolder (p : FPath) : FolderSize :=
  { path := p, size := 0, total := 0, fileCount := 0,
    oldest := 0, newest := 0, skipped := false, fileTypes := some [] }

/-- The path-to-record map `map[string]*FolderSize`. -/
abbrev FMap := List (FPath × FolderSize)

/-- Map lookup. -/
def mget (m : FMap) (p : FPath) : Option FolderSize :=
  match m.find? (fun e => e.1 == p) with
  | some e => some e.2
  | none => none

/-- Map write `m[p] = r`: update in place or append. -/
def mset (m : FMap) (p : FPath) (r : FolderSize) : FMap :=
  match m with
  | [] => [(p, r)]
  | e :: rest =>
    if e.1 == p then (p, r) :: rest
    else e :: mset rest p r

/-- The keys of the map, in insertion order. -/
def mkeys (m : FMap) : List FPath := m.map (·.1)

/-- The `ensure` helper of the v2.1 `bfsScan` (and `ensureFolder` of the
sibling variants): the stored record if present, a fresh one otherwise. -/
def ensure (m : FMap) (p : FPath) : FolderSize :=
  match mget m p with
  | some r => r
  | none => newFolder p

/-- One directory entry as `ioutil.ReadDir` reports it.  `elapsed` is the
value that `time.Since(start)` yields at this entry's slow-threshold
check. -/
structure DirEntry where
  name : String
  isDir : Bool
  size : Int
  modTime : Nat
  elapsed : Nat
deriving Repr, DecidableEq

/-- The abstract filesystem: for each directory path, either its entry list
or a read error (`none`).  Paths absent from the table also fail to read. -/
abbrev FileSys := List (FPath × Option (List DirEntry))

/-- `ioutil.ReadDir`: the listed result, or an error for unknown paths. -/
def readDir (fs : FileSys) (p : FPath) : Option (List DirEntry) :=
  match fs.find? (fun e => e.1 == p) with
  | some e => e.2
  | none => none

/-- `isExcluded` of the v2.1 source: a user exclude that is a string prefix
of the path, or a built-in pseudo-directory basename (lower-cased). -/
def isExcluded (p : FPath) (excl : List String) : Bool :=
  excl.any (fun e => listPrefixOf e.data (pathChars p)) ||
    (let b := lowerL (baseName p).data
     b == "proc".data || b == "sys".data || b == "dev".data ||
       b == "run".data || b == "tmp".data || b == "var".data)

/-- `filepath.Ext`: the suffix of the name starting at the final dot, or the
empty string when the name contains no dot. -/
def extChars (n : List Char) : List Char :=
  let tail := n.reverse.takeWhile (fun c => c != '.')
  if tail.length = n.length then [] else '.' :: tail.reverse

/-- `classifyExtension` of the v2.1 source: coarse category from the
lower-cased extension. -/
def classifyExtension (n : String) : String :=
  let e := lowerL (extChars n.data)
  let mem := fun (l : List String) => l.any (fun s => s.data == e)
  if mem [".jpg", ".jpeg", ".png", ".gif", ".bmp", ".tiff", ".raw", ".webp",
      ".heic", ".heif"] then "Image"
  else if mem [".mp4", ".mov", ".avi", ".mkv", ".flv", ".wmv", ".webm",
      ".m4v"] then "Video"
  else if mem [".mp3", ".wav", ".flac", ".aac", ".ogg", ".m4a",
      ".wma"] then "Audio"
  else if mem [".zip", ".rar", ".7z", ".tar", ".gz", ".bz2",
      ".xz"] then "Archive"
  else if mem [".pdf", ".doc", ".docx", ".txt", ".rtf"] then "Document"
  else if mem [".exe", ".dll", ".so", ".bin", ".dmg", ".pkg",
      ".apk"] then "Application"
  else if mem [".go", ".c", ".cpp", ".h", ".hpp", ".js", ".ts", ".py",
      ".java", ".sh", ".rb", ".php"] then "Code"
  else if mem [".log", ".trace"] then "Log"
  else if mem [".db", ".sqlite", ".sqlite3", ".rdb"] then "Database"
  else if mem [".bak", ".backup"] then "Backup"
  else if mem [".sql"] then "DB-Backup"
  else if mem [".iso", ".img", ".vhd", ".vhdx", ".vmdk"] then "Disk Image"
  else if mem [".conf", ".cfg", ".ini", ".yaml", ".yml", ".json",
      ".xml"] then "Configuration"
  else if mem [".ttf", ".otf", ".woff"] then "Font"
  else if mem [".html", ".htm", ".css"] then "Web"
  else if mem [".ods", ".xls", ".xlsx", ".csv"] then "Spreadsheet"
  else if mem [".odp", ".ppt", ".pptx"] then "Presentation"
  else "Other"

/-- The per-file mutation of the v2.1 entry loop: `Size`, `FileTypes`,
`FileCount` and the mod-time span absorb one regular file. -/
def applyFile (r : FolderSize) (fi : DirEntry) : FolderSize :=
  { r with
    size := r.size + fi.size,
    fileTypes := ftUpd r.fileTypes (classifyExtension fi.name) fi.size,
    fileCount := r.fileCount + 1,
    oldest := if r.oldest = 0 ∨ fi.modTime < r.oldest then fi.modTime
              else r.oldest,
    newest := if fi.modTime > r.newest then fi.modTime else r.newest }

/-- The entry loop of the v2.1 `bfsScan` over one directory's listing:
subdirectory entries are enqueued immediately; file entries accumulate into
the record via `applyFile`, and then the slow-threshold check runs
(`time.Since(start) > slow` sets `Skipped` and breaks).  Returns the updated
record and the enqueued child paths, in entry order. -/
def scanEntries (dir : FPath) (slow : Nat) :
    List DirEntry → FolderSize → FolderSize × List FPath
  | [], r => (r, [])
  | fi :: rest, r =>
    if fi.isDir then
      ((scanEntries dir slow rest r).1,
       joinPath dir fi.name :: (scanEntries dir slow rest r).2)
    else
      if fi.elapsed > slow then ({ applyFile r fi with skipped := true }, [])
      else scanEntries dir slow rest (applyFile r fi)

/-- Whether the cooperative cancellation check (`ctx.Done()` at the top of
the BFS loop) fires: the signal is modelled as set once `processed`
directories have been handled. -/
def cancelHit (cancelAfter : Option Nat) (processed : Nat) : Bool :=
  match cancelAfter with
  | some n => processed ≥ n
  | none => false

/-- The result of a scan: the record map, the processed directories in
order, and whether the scan ran to completion.  The `completed` flag is
Modelled from the spec: the Go `bfsScan` returns only the map, and the
caller observes cancellation through the shared context; the spec's scan
contract surfaces it as `completed: bool` (false exactly when the
cancellation check stopped the loop). -/
structure ScanResult where
  res : FMap
  processed : List FPath
  completed : Bool
  fuelOut : Bool
deriving Repr, DecidableEq

/-- The BFS loop of the v2.1 `bfsScan`: check cancellation, pop the queue
front, mark excluded directories skipped, read the directory (a failure
marks it skipped), otherwise run the entry loop, set `Total = Size`, store
the record and push the children.  `fuel` bounds the iteration count (the
Go loop terminates because paths strictly deepen; every theorem quantifies
over or supplies sufficient fuel).  The source's `dirCnt`/`bytesTotal`
counters and progress-channel sends feed only the progress display and are
not modelled; the `processed` list records the dequeued directories in
order. -/
def bfsScanLoop (fs : FileSys) (excl : List String) (slow : Nat)
    (cancelAfter : Option Nat) :
    Nat → List FPath → FMap → List FPath → ScanResult
  | 0, queue, res, processed =>
    match queue with
    | [] => ⟨res, processed.reverse, true, false⟩
    | _ :: _ => ⟨res, processed.reverse, false, true⟩
  | Nat.succ fuel, queue, res, processed =>
    match queue with
    | [] => ⟨res, processed.reverse, true, false⟩
    | dir :: rest =>
      if cancelHit cancelAfter processed.length then
        ⟨res, processed.reverse, false, false⟩
      else if isExcluded dir excl then
        let r := { ensure res dir with skipped := true }
        bfsScanLoop fs excl slow cancelAfter fuel rest (mset res dir r)
          (dir :: processed)
      else
        match readDir fs dir with
        | none =>
          let r := { ensure res dir with skipped := true }
          bfsScanLoop fs excl slow cancelAfter fuel rest (mset res dir r)
            (dir :: processed)
        | some ents =>
          let out := scanEntries dir slow ents (ensure res dir)
          let r := { out.1 with total := out.1.size }
          bfsScanLoop fs excl slow cancelAfter fuel (rest ++ out.2)
            (mset res dir r) (dir :: processed)

/-- `bfsScan` of the v2.1 source: BFS from `root` with an initially empty
record map and a queue holding only the root. -/
def bfsScan (fs : FileSys) (root : FPath) (excl : List String) (slow : Nat)
    (cancelAfter : Option Nat) (fuel : Nat) : ScanResult :=
  bfsScanLoop fs excl slow cancelAfter fuel [root] [] []

/-- Insertion of one path into a list sorted by descending separator count
(`sort.Slice` comparator `count(paths[i]) > count(paths[j])`). -/
def insertByDepth (p : FPath) : List FPath → List FPath
  | [] => [p]
  | q :: rest =>
    if sepCount p > sepCount q then p :: q :: rest
    else q :: insertByDepth p rest

/-- The key sort of `aggregateTotals`: descending separator count.  Go's
`sort.Slice` is unstable and iterates map keys in unspecified order, so any
order consistent with the comparator can occur; the embedding fixes the
stable insertion sort (ties keep first-insertion order). -/
def sortByDepth (ps : List FPath) : List FPath :=
  ps.foldr insertByDepth []

/-- The body of the `aggregateTotals` loop for one path `p`: read the
record, skip when the parent equals the path itself, otherwise add the
record's cumulative fields into the (created-if-missing) parent record. -/
def aggStep (m : FMap) (p : FPath) : FMap :=
  match mget m p with
  | none => m
  | some fsRec =>
    let par := parentDir p
    if par = p then m
    else
      let ps := ensure m par
      let ps' : FolderSize :=
        { ps with
          total := ps.total + fsRec.total,
          fileCount := ps.fileCount + fsRec.fileCount,
          oldest := if ps.oldest = 0 ∨ (fsRec.oldest ≠ 0 ∧ fsRec.oldest < ps.oldest)
                    then fsRec.oldest else ps.oldest,
          newest := if fsRec.newest > ps.newest then fsRec.newest else ps.newest,
          fileTypes := ftMerge ps.fileTypes fsRec.fileTypes }
      mset m par ps'

/-- `aggregateTotals` of the v2.1 source: snapshot the keys, sort them by
descending separator count, and fold the per-path rollup over them. -/
def aggregateTotals (m : FMap) : FMap :=
  (sortByDepth (mkeys m)).foldl aggStep m

/-- The `Total` recorded for `p`, with `0` for an absent record (used to
state claims about aggregated values). -/
def totalOf (m : FMap) (p : FPath) : Int :=
  match mget m p with
  | some r => r.total
  | none => 0

/-- The `Size` (own size) recorded for `p`, with `0` for an absent record. -/
def ownSizeOf (m : FMap) (p : FPath) : Int :=
  match mget m p with
  | some r => r.size
  | none => 0

/-- Modelled from the spec: "rolling up from pristine own-level fields".
Resets every record's `Total` to its own `Size` (the state `bfsScan` leaves
records in); used to compare re-aggregation of pristine fields against
re-aggregation of already-aggregated ones. -/
def resetTotalsToOwn (m : FMap) : FMap :=
  m.map (fun e => (e.1, { e.2 with total := e.2.size }))

/-- The record-map invariant of C9: every stored pair binds a key `p` to a
record whose `Path` field is `p` and whose `FileTypes` map is allocated
(non-nil). -/
def EntriesOk (m : FMap) : Prop :=
  ∀ e ∈ m, e.2.path = e.1 ∧ e.2.fileTypes.isSome = true

instance : DecidablePred EntriesOk := fun m =>
  inferInstanceAs (Decidable (∀ e ∈ m, _ ∧ _))

namespace Dedup

/-!
Embedding of `bfsComputeSizes` from the duplicate-detecting variant (the
first program of `src/unnamed/part_003`): `FolderSize` there carries a
`Duplicate` flag, the scan keeps a set of already-visited `(dev, inode)`
pairs, and a path whose pair was already seen is marked `Duplicate` and not
read.  The variant has no context cancellation and no aggregation pass.
The scan additionally returns a trace of `(path, outcome)` pairs, one per
dequeued directory, to let theorems speak about processing order.
-/

/-- `FolderSize` of the part_003 variant. -/
structure DFolder where
  path : FPath
  size : Int
  skipped : Bool
  duplicate : Bool
deriving Repr, DecidableEq

/-- `&FolderSize{Path: p}` (zero values elsewhere). -/
def newDFolder (p : FPath) : DFolder :=
  { path := p, size := 0, skipped := false, duplicate := false }

/-- The `map[string]*FolderSize` of the variant. -/
abbrev DMap := List (FPath × DFolder)

/-- Map lookup. -/
def dget (m : DMap) (p : FPath) : Option DFolder :=
  match m.find? (fun e => e.1 == p) with
  | some e => some e.2
  | none => none

/-- Map write. -/
def dset (m : DMap) (p : FPath) (r : DFolder) : DMap :=
  match m with
  | [] => [(p, r)]
  | e :: rest =>
    if e.1 == p then (p, r) :: rest
    else e :: dset rest p r

/-- `ensureFolderSize` of the variant. -/
def densure (m : DMap) (p : FPath) : DFolder :=
  match dget m p with
  | some r => r
  | none => newDFolder p

/-- `isExcluded` of the part_003 variant: built-in basenames only, compared
without lower-casing. -/
def dExcluded (p : FPath) : Bool :=
  let b := (baseName p).data
  b == "proc".data || b == "sys".data || b == "dev".data ||
    b == "run".data || b == "tmp".data || b == "var".data

/-- The identity table: `getDevInode` results per path; an absent path
models `supported = false` (Windows, `Lstat` failure, or a non-`Stat_t`
system), for which the duplicate check is bypassed. -/
abbrev IdentTab := List (FPath × (Nat × Nat))

/-- `getDevInode`: the platform `(device, inode)` pair when supported. -/
def getDevInode (itab : IdentTab) (p : FPath) : Option (Nat × Nat) :=
  match itab.find? (fun e => e.1 == p) with
  | some e => some e.2
  | none => none

/-- The entry loop of the variant: the slow-threshold check runs at the top
of every iteration, then regular files add their size.  Returns the
accumulated `localSize` and the `skipDir` flag. -/
def dScanFiles (slow : Nat) : List DirEntry → Int → Int × Bool
  | [], acc => (acc, false)
  | fi :: rest, acc =>
    if fi.elapsed > slow then (acc, true)
    else if fi.isDir then dScanFiles slow rest acc
    else dScanFiles slow rest (acc + fi.size)

/-- Child enqueueing of the variant: subdirectory entries are appended to
the queue, and a missing record is created for each (existing records are
kept).  Returns the updated map and the enqueued paths in entry order. -/
def enqueueChildren (dir : FPath) (ents : List DirEntry) (res : DMap) :
    DMap × List FPath :=
  ents.foldl
    (fun acc fi =>
      if fi.isDir then
        let sub := joinPath dir fi.name
        let m' := if (dget acc.1 sub).isSome then acc.1
                  else acc.1 ++ [(sub, newDFolder sub)]
        (m', acc.2 ++ [sub])
      else acc)
    (res, [])

/-- The mutable state of one `bfsComputeSizes` run. -/
structure DState where
  res : DMap
  seen : List (Nat × Nat)
  dirCount : Int
  totalBytes : Int
deriving Repr, DecidableEq

/-- How one dequeued directory was handled. -/
inductive DOutcome where
  | net
  | excl
  | dup
  | scanned
deriving Repr, DecidableEq

/-- Steps 4-6 of the loop body: read the directory (an error skips it),
run the entry loop, store the record, bump the counters, and enqueue the
children when neither skipped nor errored. -/
def dRead (slow : Nat) (fsys : FileSys) (s : DState) (dir : FPath) :
    DState × List FPath :=
  match readDir fsys dir with
  | none =>
    let r := { densure s.res dir with size := 0, skipped := true }
    ({ s with res := dset s.res dir r, dirCount := s.dirCount + 1 }, [])
  | some ents =>
    let out := dScanFiles slow ents 0
    let r := { densure s.res dir with size := out.1, skipped := out.2 }
    let s' : DState :=
      { s with res := dset s.res dir r, dirCount := s.dirCount + 1,
               totalBytes := if out.2 then s.totalBytes
                             else s.totalBytes + out.1 }
    if out.2 then (s', [])
    else
      let ek := enqueueChildren dir ents s'.res
      ({ s' with res := ek.1 }, ek.2)

/-- One iteration of the `bfsComputeSizes` loop on a dequeued directory:
network-mount check, exclusion check, then the `(dev, inode)` duplicate
check (an already-seen pair marks the record `Duplicate` and reads
nothing), then the read stage. -/
def dStep (net : List FPath) (slow : Nat) (fsys : FileSys) (itab : IdentTab)
    (s : DState) (dir : FPath) : DState × List FPath × DOutcome :=
  if net.contains dir then
    ({ s with res := dset s.res dir { densure s.res dir with skipped := true } },
     [], DOutcome.net)
  else if dExcluded dir then
    ({ s with res := dset s.res dir { densure s.res dir with skipped := true } },
     [], DOutcome.excl)
  else
    match getDevInode itab dir with
    | some k =>
      if s.seen.contains k then
        ({ s with res := dset s.res dir { densure s.res dir with duplicate := true },
                  dirCount := s.dirCount + 1 }, [], DOutcome.dup)
      else
        let out := dRead slow fsys { s with seen := k :: s.seen } dir
        (out.1, out.2, DOutcome.scanned)
    | none =>
      let out := dRead slow fsys s dir
      (out.1, out.2, DOutcome.scanned)

/-- The BFS loop of `bfsComputeSizes`, with fuel and a processing trace. -/
def dLoop (net : List FPath) (slow : Nat) (fsys : FileSys) (itab : IdentTab) :
    Nat → List FPath → DState → List (FPath × DOutcome) →
    DState × List (FPath × DOutcome)
  | 0, _, s, tr => (s, tr.reverse)
  | Nat.succ _, [], s, tr => (s, tr.reverse)
  | Nat.succ fuel, dir :: rest, s, tr =>
    let out := dStep net slow fsys itab s dir
    dLoop net slow fsys itab fuel (rest ++ out.2.1) out.1
      ((dir, out.2.2) :: tr)

/-- `bfsComputeSizes` of the part_003 variant: BFS from `root` with the
root's record pre-created and empty seen-set. -/
def bfsComputeSizes (net : List FPath) (slow : Nat) (fsys : FileSys)
    (itab : IdentTab) (root : FPath) (fuel : Nat) :
    DState × List (FPath × DOutcome) :=
  dLoop net slow fsys itab fuel [root]
    { res := [(root, newDFolder root)], seen := [], dirCount := 0,
      totalBytes := 0 } []

/-- A path holds a record marked `Duplicate` in the map. -/
def DupMarked (m : DMap) (p : FPath) : Prop :=
  ∃ r : DFolder, dget m p = some r ∧ r.duplicate = true

end Dedup

/-!  `parseSize` of the v2.1 source (`src/unnamed/part_000` lines 122-144):
trim, upper-case, match `^([0-9]*\.?[0-9]+)\s*([KMGTP]?)B?$`, parse the
number with `strconv.ParseFloat` and multiply by the binary unit
multiplier, converting to `int64`.  The float64 value of the decimal
literal is modelled exactly: `ParseFloat` is documented as returning the
nearest IEEE-754 binary64 value (round to nearest, ties to even), which
`floatOfDec` computes on exact rationals, and scaling a binary64 value by
the power of two `2^k` is exact.  The final non-constant `float64 → int64`
conversion truncates toward zero and, per the Go specification, its result
is implementation-defined when the truncated value is not representable in
`int64`; `parseSize` returns `SizeOut.undef` in that case and the
well-defined truncation otherwise. -/

/-- ASCII digit test (`[0-9]` of the pattern). -/
def isDigitChar (c : Char) : Bool := '0' ≤ c && c ≤ '9'

/-- Numeric value of a digit character. -/
def digitVal (c : Char) : Nat := c.toNat - '0'.toNat

/-- The natural number denoted by a digit string. -/
def natOfDigits (l : List Char) : Nat :=
  l.foldl (fun a c => 10 * a + digitVal c) 0

/-- The `\s` class of Go's regexp package: `[\t\n\f\r ]`. -/
def isSpaceRe (c : Char) : Bool :=
  c == '\t' || c == '\n' || c == '\x0c' || c == '\r' || c == ' '

/-- `unicode.IsSpace` as `strings.TrimSpace` uses it, on the ASCII range
(the claims exercise no non-ASCII whitespace): adds `\v` to the `\s`
class. -/
def isSpaceGo (c : Char) : Bool := isSpaceRe c || c == '\x0b'

/-- `strings.TrimSpace` on a character list. -/
def trimSpace (l : List Char) : List Char :=
  ((l.dropWhile isSpaceGo).reverse.dropWhile isSpaceGo).reverse

/-- Match the number group `[0-9]*\.?[0-9]+` at the front of the input:
returns the decimal value as mantissa and scale (`(a, d)` denotes
`a / 10^d`) together with the unconsumed remainder.  (No later regex
element can consume a digit or a dot, so the greedy reading is the only
possible match.) -/
def numSplit (l : List Char) : Option ((Nat × Nat) × List Char) :=
  let d1 := l.takeWhile isDigitChar
  let r1 := l.dropWhile isDigitChar
  match r1 with
  | '.' :: r2 =>
    let d2 := r2.takeWhile isDigitChar
    let r3 := r2.dropWhile isDigitChar
    if d2.isEmpty then none
    else some ((natOfDigits (d1 ++ d2), d2.length), r3)
  | _ => if d1.isEmpty then none else some ((natOfDigits d1, 0), r1)

/-- Match the tail `\s*([KMGTP]?)B?$` of the pattern: returns the exponent
`k` of the binary multiplier `2^k` chosen by the unit switch of the source
(`K ↦ 2^10`, `M ↦ 2^20`, `G ↦ 2^30`, `T ↦ 2^40`, `P ↦ 2^50`, none `↦ 1`),
or `none` when the tail fails to match. -/
def unitSplit (l : List Char) : Option Nat :=
  let l1 := l.dropWhile isSpaceRe
  let ku : Nat × List Char :=
    match l1 with
    | 'K' :: r => (10, r)
    | 'M' :: r => (20, r)
    | 'G' :: r => (30, r)
    | 'T' :: r => (40, r)
    | 'P' :: r => (50, r)
    | _ => (0, l1)
  let l3 := match ku.2 with
    | 'B' :: r => r
    | r => r
  if l3.isEmpty then some ku.1 else none

/-- The whole-string match of `^([0-9]*\.?[0-9]+)\s*([KMGTP]?)B?$`: the
decimal mantissa and scale of the number group and the multiplier
exponent. -/
def matchSize (l : List Char) : Option ((Nat × Nat) × Nat) :=
  match numSplit l with
  | none => none
  | some qr =>
    match unitSplit qr.2 with
    | none => none
    | some k => some (qr.1, k)

/-- Whether `2^e ≤ a / 10^d`, decided in integer arithmetic. -/
def pow2LeDec (e : Int) (a d : Nat) : Bool :=
  if 0 ≤ e then 2 ^ e.toNat * 10 ^ d ≤ a else 10 ^ d ≤ a * 2 ^ (-e).toNat

/-- Halving count with explicit fuel (structural recursion, so that the
kernel can evaluate it; `fuel = n` always suffices). -/
def log2Fuel : Nat → Nat → Nat
  | 0, _ => 0
  | Nat.succ fuel, n => if 2 ≤ n then log2Fuel fuel (n / 2) + 1 else 0

/-- `⌊log2 n⌋` for `n ≥ 1` (and `0` for `n = 0`). -/
def natLog2 (n : Nat) : Nat := log2Fuel n n

/-- The binary exponent of the positive decimal `a / 10^d`: the unique `e`
with `2^e ≤ a/10^d < 2^(e+1)`.  The bit-length difference `e0` of `a` and
`10^d` overestimates it by at most one, so one comparison corrects it. -/
def decExp (a d : Nat) : Int :=
  let e0 : Int := (natLog2 a : Int) - (natLog2 (10 ^ d) : Int)
  if pow2LeDec e0 a d then e0 else e0 - 1

/-- Round the fraction `num / den` (with `den > 0`) to the nearest natural
number, ties to even. -/
def rheFrac (num den : Nat) : Nat :=
  let n := num / den
  let r := num % den
  if 2 * r < den then n
  else if den < 2 * r then n + 1
  else if n % 2 = 0 then n else n + 1

/-- The binary64 value of the nonnegative decimal `a / 10^d`, as a
significand-exponent pair `(m, e)` denoting `m * 2^(e-52)`: the 53-bit
significand is rounded to nearest, ties to even — the value
`strconv.ParseFloat` is documented to return for the matched decimal
literal throughout the normal binary64 range.  Outside that range the pair
is only a surrogate, but one that `parseSize` classifies exactly as the
real value would be: a decimal in the subnormal range (`< 2^-1022`) yields,
like the real rounding, a scaled product below `1` that truncates to `0`,
and a decimal at or beyond the overflow threshold (where `ParseFloat`
returns `+Inf` and the ignored range error) yields a truncation far above
`2^63`, landing in the implementation-defined case either way. -/
def floatOfDec (a d : Nat) : Nat × Int :=
  if a = 0 then (0, 0)
  else
    let e := decExp a d
    let m := if 0 ≤ 52 - e then rheFrac (a * 2 ^ (52 - e).toNat) (10 ^ d)
             else rheFrac a (10 ^ d * 2 ^ (e - 52).toNat)
    (m, e)

/-- Truncation toward zero of the nonnegative value `m * 2^t` (for
nonnegative values the floor): the mathematical truncation only — the
`int64` range check of the conversion is applied by `parseSize`. -/
def truncScaled (m : Nat) (t : Int) : Nat :=
  if 0 ≤ t then m * 2 ^ t.toNat else m / 2 ^ (-t).toNat

/-- The outcome of `parseSize`: `err` for a failed match (the source's
`(0, errors.New("bad size"))`); `ok n` for a well-defined result `(n, nil)`;
`undef` when the truncated value of `v * float64(mult)` does not fit in
`int64` (for these nonnegative values: is at or above `2^63`), where the Go
specification makes the conversion's result implementation-defined. -/
inductive SizeOut : Type
  | err : SizeOut
  | undef : SizeOut
  | ok : Int → SizeOut
deriving DecidableEq

/-- `parseSize` of the v2.1 source: `err` for a failed match, otherwise the
`int64` conversion of `float64(number) * multiplier` (multiplication of a
binary64 value by the power of two `2^k` only shifts the exponent, so it is
exact): the truncation toward zero when that value is representable in
`int64`, and the implementation-defined marker `undef` when it is not. -/
def parseSize (s : String) : SizeOut :=
  match matchSize (trimSpace (upperL s.data)) with
  | none => SizeOut.err
  | some qk =>
    let f := floatOfDec qk.1.1 qk.1.2
    let n := truncScaled f.1 (f.2 - 52 + qk.2)
    if n < 2 ^ 63 then SizeOut.ok (n : Int) else SizeOut.undef

/-- Modelled from the spec: the value clause of the claim — "the parsed
number multiplied by the binary multiplier of its unit, truncated to an
integer" — computed with exact arithmetic
(`⌊(a / 10^d) * 2^k⌋ = (a * 2^k) / 10^d`), for comparison with the
float64-mediated `parseSize`. -/
def parseSizeClaimed (s : String) : Option Int :=
  match matchSize (trimSpace (upperL s.data)) with
  | none => none
  | some qk => some (((qk.1.1 * 2 ^ qk.2 / 10 ^ qk.1.2 : Nat)) : Int)

/-!  Concrete inputs used by the claim theorems and witnesses. -/

/-- The tree of the spec's concrete scenario: `/a` holds `f1` (100 bytes)
and `/a/b`; `/a/b` holds `f2` (200 bytes) and `/a/b/c`; `/a/b/c` holds `f3`
(300 bytes). -/
def fsC8 : FileSys :=
  [ (["a"], some [⟨"f1", false, 100, 1, 0⟩, ⟨"b", true, 0, 0, 0⟩]),
    (["a","b"], some [⟨"f2", false, 200, 2, 0⟩, ⟨"c", true, 0, 0, 0⟩]),
    (["a","b","c"], some [⟨"f3", false, 300, 3, 0⟩]) ]

/-- The record map `bfsScan` produces on the scenario tree. -/
def scanC8 : FMap := (bfsScan fsC8 ["a"] [] 1000 none 10).res

/-- The scenario map after aggregation. -/
def aggC8 : FMap := aggregateTotals scanC8

/-- A two-record pristine map (`Total = Size`, as `bfsScan` leaves it):
`/a` with own size 1 and its child `/a/b` with own size 2. -/
def mC1 : FMap :=
  [ (["a"], { newFolder ["a"] with size := 1, total := 1 }),
    (["a","b"], { newFolder ["a","b"] with size := 2, total := 2 }) ]

/-- A one-record map whose single path has no parent in the map. -/
def mC4 : FMap := [ (["a","b"], newFolder ["a","b"]) ]

/-- A tree whose root read turns slow: `/a` lists subdirectory `b`, then a
file `f` whose slow-threshold check observes 3 time units (over the budget
of 2), then subdirectory `c`. -/
def fsC2 : FileSys :=
  [ (["a"], some [⟨"b", true, 0, 0, 0⟩, ⟨"f", false, 10, 5, 3⟩,
        ⟨"c", true, 0, 0, 4⟩]),
    (["a","b"], some []) ]

/-- The record map of the slow-root scan (`slowThreshold = 2`). -/
def scanC2 : FMap := (bfsScan fsC2 ["a"] [] 2 none 10).res

/-- A filesystem whose root `/a` fails to read. -/
def fsC6 : FileSys := [ (["a"], none) ]

/-- Identity table for the duplicate scenario: `/a/b` and `/a/c` are the
same physical directory (device 1, inode 5). -/
def itabD : Dedup.IdentTab :=
  [ (["a"], (1, 1)), (["a","b"], (1, 5)), (["a","c"], (1, 5)) ]

/-- The duplicate-scenario tree: `/a` holds subdirectories `b` and `c`
(hard-linked to each other) and file `f` (7 bytes); each of `b`, `c` holds
`g` (11 bytes). -/
def fsD : FileSys :=
  [ (["a"], some [⟨"b", true, 0, 0, 0⟩, ⟨"c", true, 0, 0, 0⟩,
        ⟨"f", false, 7, 1, 0⟩]),
    (["a","b"], some [⟨"g", false, 11, 2, 0⟩]),
    (["a","c"], some [⟨"g", false, 11, 2, 0⟩]) ]

/-!  Theorems. -/

/-- C8: on the concrete tree (`/a`: `f1` 100 B and `/a/b`; `/a/b`: `f2`
200 B and `/a/b/c`; `/a/b/c`: `f3` 300 B) the scan computes the own sizes
100, 200, 300 and aggregation the totals 300, 500, 600. -/
theorem C8_concrete_three_level_tree :
    ownSizeOf scanC8 ["a"] = 100 ∧ ownSizeOf scanC8 ["a","b"] = 200 ∧
    ownSizeOf scanC8 ["a","b","c"] = 300 ∧
    totalOf aggC8 ["a","b","c"] = 300 ∧ totalOf aggC8 ["a","b"] = 500 ∧
    totalOf aggC8 ["a"] = 600 := by decide

/-- C1 counterexample: `aggregateTotals` is not idempotent — on the
two-record pristine map `mC1` one run yields `totalSize(/a) = 3` but a
second run yields 5 (the child's aggregated total is rolled up again). -/
theorem C1_aggregate_not_idempotent :
    totalOf (aggregateTotals mC1) ["a"] = 3 ∧
    totalOf (aggregateTotals (aggregateTotals mC1)) ["a"] = 5 ∧
    ¬ totalOf (aggregateTotals (aggregateTotals mC1)) ["a"]
        = totalOf (aggregateTotals mC1) ["a"] := by decide

/-- C1 amended: the rollup reads the mutated `Total` field, so a second
`aggregateTotals` run double-counts (on `mC1`: once 3, twice 5); the
one-run totals are reproduced only when every `Total` is first reset to its
own `Size` (pristine own-level fields), as the reset-then-reaggregate run
on the same set shows. -/
theorem C1_amended_reset_restores_totals :
    totalOf (aggregateTotals mC1) ["a"] = 3 ∧
    totalOf (aggregateTotals mC1) ["a","b"] = 2 ∧
    totalOf (aggregateTotals (aggregateTotals mC1)) ["a"] = 5 ∧
    totalOf (aggregateTotals (resetTotalsToOwn (aggregateTotals mC1))) ["a"] = 3 ∧
    totalOf (aggregateTotals (resetTotalsToOwn (aggregateTotals mC1))) ["a","b"] = 2 := by
  decide

/-- C4 counterexample: aggregation does add a path that was not present —
on the one-record map `mC4 = {/a/b}` the run creates the record `/a`. -/
theorem C4_aggregate_creates_missing_parent :
    (mget mC4 ["a"]).isSome = false ∧
    (mget (aggregateTotals mC4) ["a"]).isSome = true := by decide

/-- C2 counterexample: in the v2.1 scan, subdirectories listed before the
slow-threshold break are already enqueued — on `fsC2` the root `/a` is
marked Skipped by the timeout, yet its subdirectory `/a/b` appears in the
final record set (while `/a/c`, listed after the break, does not). -/
theorem C2_slow_dir_child_still_scanned :
    (mget scanC2 ["a"]).map FolderSize.skipped = some true ∧
    (mget scanC2 ["a","b"]).isSome = true ∧
    (mget scanC2 ["a","c"]).isSome = false := by decide

/-- C6 counterexample: an unreadable root is not fatal — the scan returns
one record (the root, marked Skipped) and completes normally, not an
explicit failure with zero records. -/
theorem C6_unreadable_root_not_fatal :
    (bfsScan fsC6 ["a"] [] 2 none 10).res.length = 1 ∧
    (bfsScan fsC6 ["a"] [] 2 none 10).completed = true ∧
    (mget (bfsScan fsC6 ["a"] [] 2 none 10).res ["a"]).map FolderSize.skipped
      = some true := by decide

set_option maxRecDepth 8000 in
/-- C10 counterexample: `parseSize` goes through `float64`, so its result
can differ from the claimed exact truncated product: on the accepted input
`"18014398509481985"` (2^54 + 1, no unit, well inside the `int64` range)
the code returns 2^54 = 18014398509481984, not the claimed
18014398509481985. -/
theorem C10_float64_rounding_diverges :
    parseSize "18014398509481985" = SizeOut.ok 18014398509481984 ∧
    parseSizeClaimed "18014398509481985" = some 18014398509481985 ∧
    ¬ parseSize "18014398509481985" = SizeOut.ok 18014398509481985 := by
  decide

/-- Helper: the v2.1 entry loop on a listing that turns slow at the file
entry `f` (every earlier file entry is within budget): the record absorbs
the files of `pre` and then `f`, is marked Skipped, and the enqueued
children are exactly the subdirectory entries of `pre` — nothing at or
after the break point is enqueued. -/
theorem scanEntries_slow_break (dir : FPath) (slow : Nat) (pre : List DirEntry)
    (f : DirEntry) (post : List DirEntry) (r : FolderSize)
    (hf : f.isDir = false) (hsl : slow < f.elapsed)
    (hpre : ∀ g ∈ pre, g.isDir = false → g.elapsed ≤ slow) :
    scanEntries dir slow (pre ++ f :: post) r =
      ({ applyFile ((pre.filter (fun e => !e.isDir)).foldl applyFile r) f
          with skipped := true },
       (pre.filter (fun e => e.isDir)).map (fun e => joinPath dir e.name)) := by
  induction pre generalizing r with
  | nil =>
    simp only [List.nil_append, scanEntries, hf, Bool.false_eq_true, if_false,
      List.filter_nil, List.foldl_nil, List.map_nil]
    rw [if_pos hsl]
  | cons g rest ih =>
    have hrest : ∀ x ∈ rest, x.isDir = false → x.elapsed ≤ slow := by
      intro x hx; exact hpre x (List.mem_cons_of_mem g hx)
    by_cases hd : g.isDir = true
    · rw [List.cons_append]
      simp only [scanEntries, hd, if_true]
      rw [ih r hrest]
      simp [List.filter_cons, hd]
    · have hg : g.elapsed ≤ slow := by
        refine hpre g (List.mem_cons_self g rest) ?_
        simpa using hd
      have hgd : (!g.isDir) = true := by simpa using hd
      rw [List.cons_append]
      simp only [scanEntries, hd, Bool.false_eq_true, if_false]
      rw [if_neg (by omega : ¬ slow < g.elapsed)]
      rw [ih (applyFile r g) hrest]
      simp [List.filter_cons, hgd, hd]

/-- Helper: folding files through `applyFile` adds exactly the sum of their
sizes to the record's `Size`. -/
theorem foldl_applyFile_size (files : List DirEntry) (r : FolderSize) :
    (files.foldl applyFile r).size = r.size + (files.map DirEntry.size).sum := by
  induction files generalizing r with
  | nil => simp
  | cons fi rest ih =>
    simp only [List.foldl_cons, List.map_cons, List.sum_cons, ih, applyFile]
    ring

/-- C2 amended: a directory whose entry read exceeds `slowThreshold` at a
file entry is marked Skipped, and the children its processing enqueues are
exactly the subdirectory entries listed before the budget-exceeding entry —
subdirectories listed at or after that point are not enqueued, but the
earlier ones stay on the queue and do appear in the final record set. -/
theorem C2_amended_slow_break_enqueues_before (dir : FPath) (slow : Nat)
    (pre : List DirEntry) (f : DirEntry) (post : List DirEntry)
    (r : FolderSize) (hf : f.isDir = false) (hsl : slow < f.elapsed)
    (hpre : ∀ g ∈ pre, g.isDir = false → g.elapsed ≤ slow) :
    (scanEntries dir slow (pre ++ f :: post) r).1.skipped = true ∧
    (scanEntries dir slow (pre ++ f :: post) r).2 =
      (pre.filter (fun e => e.isDir)).map (fun e => joinPath dir e.name) := by
  rw [scanEntries_slow_break dir slow pre f post r hf hsl hpre]
  exact ⟨rfl, rfl⟩

/-- C2 amended, witness: on the root listing of `fsC2` (subdirectory `b`,
then the over-budget file `f`, then subdirectory `c`), the record is
Skipped and only `b` is enqueued. -/
theorem C2_amended_slow_break_enqueues_before_witness :
    (scanEntries ["a"] 2 [⟨"b", true, 0, 0, 0⟩, ⟨"f", false, 10, 5, 3⟩,
        ⟨"c", true, 0, 0, 4⟩] (newFolder ["a"])).1.skipped = true ∧
    (scanEntries ["a"] 2 [⟨"b", true, 0, 0, 0⟩, ⟨"f", false, 10, 5, 3⟩,
        ⟨"c", true, 0, 0, 4⟩] (newFolder ["a"])).2 = [["a", "b"]] := by
  have h := C2_amended_slow_break_enqueues_before ["a"] 2
    [⟨"b", true, 0, 0, 0⟩] ⟨"f", false, 10, 5, 3⟩ [⟨"c", true, 0, 0, 4⟩]
    (newFolder ["a"]) rfl (by decide) (by decide)
  exact ⟨h.1, h.2.trans (by decide)⟩

/-- C7: a directory whose entry read exceeds `slowThreshold` at a file
entry transitions to Skipped while keeping the partial own size accumulated
up to that point (the files before the break and the file at which the
excess is observed), rather than zero. -/
theorem C7_partial_own_size_kept (dir : FPath) (slow : Nat)
    (pre : List DirEntry) (f : DirEntry) (post : List DirEntry)
    (r : FolderSize) (hf : f.isDir = false) (hsl : slow < f.elapsed)
    (hpre : ∀ g ∈ pre, g.isDir = false → g.elapsed ≤ slow) :
    (scanEntries dir slow (pre ++ f :: post) r).1.skipped = true ∧
    (scanEntries dir slow (pre ++ f :: post) r).1.size =
      r.size + ((pre.filter (fun e => !e.isDir)).map DirEntry.size).sum
        + f.size := by
  rw [scanEntries_slow_break dir slow pre f post r hf hsl hpre]
  refine ⟨rfl, ?_⟩
  show (applyFile ((pre.filter (fun e => !e.isDir)).foldl applyFile r) f).size = _
  simp only [applyFile, foldl_applyFile_size]

/-- C7 witness: the spec's slow-directory scenario shape — two in-budget
files of 20 and 30 bytes, then an over-budget file of 5 bytes: the record
is Skipped with partial own size 55, not zero. -/
theorem C7_partial_own_size_kept_witness :
    (scanEntries ["a","slow"] 2 [⟨"x", false, 20, 1, 1⟩, ⟨"y", false, 30, 1, 2⟩,
        ⟨"z", false, 5, 1, 9⟩] (newFolder ["a","slow"])).1.skipped = true ∧
    (scanEntries ["a","slow"] 2 [⟨"x", false, 20, 1, 1⟩, ⟨"y", false, 30, 1, 2⟩,
        ⟨"z", false, 5, 1, 9⟩] (newFolder ["a","slow"])).1.size = 55 := by
  have h := C7_partial_own_size_kept ["a","slow"] 2
    [⟨"x", false, 20, 1, 1⟩, ⟨"y", false, 30, 1, 2⟩] ⟨"z", false, 5, 1, 9⟩ []
    (newFolder ["a","slow"]) rfl (by decide) (by decide)
  exact ⟨h.1, h.2.trans (by decide)⟩

/-- Helper: the BFS loop returns immediately on an empty queue, reporting
normal completion. -/
theorem bfsScanLoop_nil (fs : FileSys) (excl : List String) (slow : Nat)
    (cancelAfter : Option Nat) (fuel : Nat) (res : FMap)
    (processed : List FPath) :
    bfsScanLoop fs excl slow cancelAfter fuel [] res processed =
      ⟨res, processed.reverse, true, false⟩ := by
  cases fuel <;> rfl

/-- C6 amended: an unreadable root is not fatal and produces no explicit
zero-record failure — it is handled exactly like any per-directory read
failure: the root is marked Skipped with own size 0, the scan returns that
single record and completes normally. -/
theorem C6_amended_unreadable_root_single_record (fs : FileSys) (root : FPath)
    (excl : List String) (slow fuel : Nat)
    (hexc : isExcluded root excl = false) (hread : readDir fs root = none)
    (hfuel : 1 ≤ fuel) :
    bfsScan fs root excl slow none fuel =
      ⟨[(root, { newFolder root with skipped := true })], [root], true,
        false⟩ := by
  obtain ⟨f, rfl⟩ : ∃ f, fuel = f + 1 := ⟨fuel - 1, by omega⟩
  show bfsScanLoop fs excl slow none (f + 1) [root] [] [] = _
  simp only [bfsScanLoop, cancelHit, hexc, hread, Bool.false_eq_true,
    if_false]
  exact bfsScanLoop_nil fs excl slow none f _ _

/-- C6 amended, witness: the concrete unreadable-root filesystem `fsC6`. -/
theorem C6_amended_unreadable_root_single_record_witness :
    isExcluded ["a"] [] = false ∧ readDir fsC6 ["a"] = none ∧
    bfsScan fsC6 ["a"] [] 2 none 10 =
      ⟨[(["a"], { newFolder ["a"] with skipped := true })], [["a"]], true,
        false⟩ := by
  exact ⟨by decide, by decide,
    C6_amended_unreadable_root_single_record fsC6 ["a"] [] 2 10 (by decide)
      (by decide) (by omega)⟩

/-- Helper: a map write is visible to exactly its own key. -/
theorem mget_mset (m : FMap) (k : FPath) (v : FolderSize) (p : FPath) :
    mget (mset m k v) p = if p = k then some v else mget m p := by
  induction m with
  | nil =>
    by_cases h : p = k
    · subst h; simp [mget, mset, List.find?]
    · simp only [mset, mget, List.find?]
      have : (k == p) = false := by
        simpa using fun hkp => h (by simp [hkp])
      simp [this, h]
  | cons e rest ih =>
    by_cases he : e.1 = k
    · have hbeq : (e.1 == k) = true := by simp [he]
      by_cases h : p = k
      · subst h
        simp [mset, hbeq, mget, List.find?, he]
      · have : (k == p) = false := by
          simpa using fun hkp => h (by simp [hkp])
        have he1p : (e.1 == p) = false := by simp [he, this]
        simp [mset, hbeq, mget, List.find?, this, h, he1p, he]
    · have hbeq : (e.1 == k) = false := by simp [he]
      by_cases hp : e.1 = p
      · have h : ¬ p = k := fun hx => he (by rw [hp, hx])
        simp [mset, hbeq, mget, List.find?, hp, h]
      · have he1p : (e.1 == p) = false := by simp [hp]
        simp only [mset, hbeq, Bool.false_eq_true, if_false]
        simp only [mget, List.find?, he1p]
        exact ih

/-- Helper: the cancellation invariant of the BFS loop.  Records exist for
exactly the processed (dequeued, finalized) directories; with the signal set
after `K` of them, a run that neither exhausted fuel nor completed stopped
with exactly `K` processed directories, and its record set is exactly
them. -/
theorem bfsScanLoop_cancel_exact (fs : FileSys) (excl : List String)
    (slow K : Nat) (fuel : Nat) :
    ∀ (queue : List FPath) (res : FMap) (processed : List FPath),
    (∀ p : FPath, (mget res p).isSome = true ↔ p ∈ processed) →
    processed.length ≤ K →
    (bfsScanLoop fs excl slow (some K) fuel queue res processed).fuelOut
        = false →
    (bfsScanLoop fs excl slow (some K) fuel queue res processed).completed
        = false →
    (bfsScanLoop fs excl slow (some K) fuel queue res
        processed).processed.length = K ∧
    ∀ p : FPath,
      (mget (bfsScanLoop fs excl slow (some K) fuel queue res processed).res
          p).isSome = true ↔
      p ∈ (bfsScanLoop fs excl slow (some K) fuel queue res
          processed).processed := by
  induction fuel with
  | zero =>
    intro queue res processed hinv hle hfo hc
    cases queue with
    | nil => simp [bfsScanLoop] at hc
    | cons d q => simp [bfsScanLoop] at hfo
  | succ fuel ih =>
    intro queue res processed hinv hle hfo hc
    cases queue with
    | nil => simp [bfsScanLoop] at hc
    | cons dir rest =>
      by_cases hcan : K ≤ processed.length
      · have hc' : cancelHit (some K) processed.length = true := by
          simp [cancelHit, hcan]
        have hout : bfsScanLoop fs excl slow (some K) (fuel + 1)
            (dir :: rest) res processed
            = ⟨res, processed.reverse, false, false⟩ := by
          simp [bfsScanLoop, hc']
        rw [hout]
        refine ⟨by simpa using le_antisymm hle hcan, ?_⟩
        intro p
        simpa using hinv p
      · have hc' : cancelHit (some K) processed.length = false := by
          simp [cancelHit, hcan]
        have hlen : (dir :: processed).length ≤ K := by
          simp only [List.length_cons]; omega
        have hinv' : ∀ (r : FolderSize) (p : FPath),
            (mget (mset res dir r) p).isSome = true ↔ p ∈ dir :: processed := by
          intro r p
          rw [mget_mset]
          by_cases hp : p = dir
          · simp [hp]
          · simp [hp, hinv p]
        by_cases hx : isExcluded dir excl = true
        · have hout : bfsScanLoop fs excl slow (some K) (fuel + 1)
              (dir :: rest) res processed
              = bfsScanLoop fs excl slow (some K) fuel rest
                  (mset res dir { ensure res dir with skipped := true })
                  (dir :: processed) := by
            simp [bfsScanLoop, hc', hx]
          rw [hout] at hfo hc ⊢
          exact ih rest _ (dir :: processed) (hinv' _) hlen hfo hc
        · cases hr : readDir fs dir with
          | none =>
            have hout : bfsScanLoop fs excl slow (some K) (fuel + 1)
                (dir :: rest) res processed
                = bfsScanLoop fs excl slow (some K) fuel rest
                    (mset res dir { ensure res dir with skipped := true })
                    (dir :: processed) := by
              simp [bfsScanLoop, hc', hx, hr]
            rw [hout] at hfo hc ⊢
            exact ih rest _ (dir :: processed) (hinv' _) hlen hfo hc
          | some ents =>
            have hout : bfsScanLoop fs excl slow (some K) (fuel + 1)
                (dir :: rest) res processed
                = bfsScanLoop fs excl slow (some K) fuel
                    (rest ++ (scanEntries dir slow ents (ensure res dir)).2)
                    (mset res dir
                      { (scanEntries dir slow ents (ensure res dir)).1 with
                        total :=
                          (scanEntries dir slow ents (ensure res dir)).1.size })
                    (dir :: processed) := by
              simp [bfsScanLoop, hc', hx, hr]
            rw [hout] at hfo hc ⊢
            exact ih _ _ (dir :: processed) (hinv' _) hlen hfo hc

/-- C5: when the cancellation signal is set after exactly `K` directories
have been finalized (the cooperative check fires before the next dequeue),
a scan that was still running (`completed = false`, fuel not exhausted)
returns a record set holding exactly the `K` processed directories. -/
theorem C5_cancel_returns_exactly_processed (fs : FileSys) (root : FPath)
    (excl : List String) (slow K fuel : Nat)
    (hfo : (bfsScan fs root excl slow (some K) fuel).fuelOut = false)
    (hc : (bfsScan fs root excl slow (some K) fuel).completed = false) :
    (bfsScan fs root excl slow (some K) fuel).processed.length = K ∧
    ∀ p : FPath,
      (mget (bfsScan fs root excl slow (some K) fuel).res p).isSome = true ↔
      p ∈ (bfsScan fs root excl slow (some K) fuel).processed := by
  exact bfsScanLoop_cancel_exact fs excl slow K fuel [root] [] []
    (by intro p; simp [mget, List.find?]) (by simp) hfo hc

/-- C5 witness: cancelling the scenario-tree scan after two directories
yields exactly the two processed records (`/a` and `/a/b`) and
`completed = false`. -/
theorem C5_cancel_returns_exactly_processed_witness :
    (bfsScan fsC8 ["a"] [] 1000 (some 2) 10).completed = false ∧
    (bfsScan fsC8 ["a"] [] 1000 (some 2) 10).processed.length = 2 ∧
    ((mget (bfsScan fsC8 ["a"] [] 1000 (some 2) 10).res ["a","b"]).isSome
        = true ↔
      ["a","b"] ∈ (bfsScan fsC8 ["a"] [] 1000 (some 2) 10).processed) := by
  have h := C5_cancel_returns_exactly_processed fsC8 ["a"] [] 1000 2 10
    (by decide) (by decide)
  exact ⟨by decide, h.1, h.2 ["a","b"]⟩

/-- Helper: updating a histogram entry preserves allocation. -/
theorem ftUpd_isSome (m : Option FT) (k : String) (v : Int) :
    (ftUpd m k v).isSome = m.isSome := by
  cases m <;> rfl

/-- Helper: folding histogram updates preserves allocation. -/
theorem foldl_ftUpd_isSome (l : FT) :
    ∀ dst : Option FT, dst.isSome = true →
      (l.foldl (fun d e => ftUpd d e.1 e.2) dst).isSome = true := by
  induction l with
  | nil => intro dst h; exact h
  | cons e rest ih =>
    intro dst h
    exact ih _ (by rw [ftUpd_isSome]; exact h)

/-- Helper: merging histograms preserves allocation of the destination. -/
theorem ftMerge_isSome (dst src : Option FT) (h : dst.isSome = true) :
    (ftMerge dst src).isSome = true := by
  cases src with
  | none => exact h
  | some l => exact foldl_ftUpd_isSome l dst h

/-- Helper: the entry loop never touches `Path` and keeps `FileTypes`
allocated. -/
theorem scanEntries_preserves_ok (dir : FPath) (slow : Nat)
    (ents : List DirEntry) :
    ∀ r : FolderSize,
      (scanEntries dir slow ents r).1.path = r.path ∧
      (scanEntries dir slow ents r).1.fileTypes.isSome
        = r.fileTypes.isSome := by
  induction ents with
  | nil => intro r; exact ⟨rfl, rfl⟩
  | cons fi rest ih =>
    intro r
    by_cases hd : fi.isDir = true
    · simpa [scanEntries, hd] using ih r
    · by_cases hsl : slow < fi.elapsed
      · simp [scanEntries, hd, hsl, applyFile, ftUpd_isSome]
      · have h := ih (applyFile r fi)
        simp only [scanEntries, hd, Bool.false_eq_true, if_false,
          gt_iff_lt, hsl]
        constructor
        · exact h.1.trans rfl
        · rw [h.2]; simp [applyFile, ftUpd_isSome]

/-- Helper: reading an entry of a map satisfying `EntriesOk` yields a
record whose `Path` is the key and whose `FileTypes` is allocated. -/
theorem EntriesOk_mget (m : FMap) (hm : EntriesOk m) (p : FPath)
    (r : FolderSize) (h : mget m p = some r) :
    r.path = p ∧ r.fileTypes.isSome = true := by
  unfold mget at h
  cases hfind : m.find? (fun e => e.1 == p) with
  | none => rw [hfind] at h; exact absurd h (by simp)
  | some e =>
    rw [hfind] at h
    have he : e.2 = r := by simpa using h
    have hmem := List.mem_of_find?_eq_some hfind
    have hpred := List.find?_some hfind
    have hkey : e.1 = p := by simpa using hpred
    have := hm e hmem
    exact ⟨he ▸ hkey ▸ this.1, he ▸ this.2⟩

/-- Helper: `ensure` always yields a well-formed record. -/
theorem ensure_ok (m : FMap) (hm : EntriesOk m) (p : FPath) :
    (ensure m p).path = p ∧ (ensure m p).fileTypes.isSome = true := by
  unfold ensure
  cases h : mget m p with
  | none => exact ⟨rfl, rfl⟩
  | some r => exact EntriesOk_mget m hm p r h

/-- Helper: writing a well-formed record preserves `EntriesOk`. -/
theorem EntriesOk_mset (m : FMap) (p : FPath) (r : FolderSize)
    (hm : EntriesOk m) (hr : r.path = p ∧ r.fileTypes.isSome = true) :
    EntriesOk (mset m p r) := by
  induction m with
  | nil =>
    intro e he
    simp only [mset, List.mem_singleton] at he
    subst he
    exact hr
  | cons x rest ih =>
    have hx := hm x (List.mem_cons_self x rest)
    have hrest : EntriesOk rest := fun e he => hm e (List.mem_cons_of_mem x he)
    intro e he
    simp only [mset] at he
    by_cases hk : (x.1 == p) = true
    · rw [if_pos hk] at he
      rcases List.mem_cons.mp he with h1 | h2
      · subst h1; exact hr
      · exact hm e (List.mem_cons_of_mem x h2)
    · rw [if_neg (by simpa using hk)] at he
      rcases List.mem_cons.mp he with h1 | h2
      · subst h1; exact hx
      · exact ih hrest e h2

/-- Helper: the BFS loop preserves `EntriesOk`. -/
theorem bfsScanLoop_entriesOk (fs : FileSys) (excl : List String)
    (slow : Nat) (cancelAfter : Option Nat) (fuel : Nat) :
    ∀ (queue : List FPath) (res : FMap) (processed : List FPath),
      EntriesOk res →
      EntriesOk (bfsScanLoop fs excl slow cancelAfter fuel queue res
        processed).res := by
  induction fuel with
  | zero =>
    intro queue res processed hres
    cases queue <;> simpa [bfsScanLoop] using hres
  | succ fuel ih =>
    intro queue res processed hres
    cases queue with
    | nil => simpa [bfsScanLoop] using hres
    | cons dir rest =>
      by_cases hcan : cancelHit cancelAfter processed.length = true
      · simpa [bfsScanLoop, hcan] using hres
      · have hcan' : cancelHit cancelAfter processed.length = false := by
          simpa using hcan
        have hens := ensure_ok res hres dir
        by_cases hx : isExcluded dir excl = true
        · have hout : bfsScanLoop fs excl slow cancelAfter (fuel + 1)
              (dir :: rest) res processed
              = bfsScanLoop fs excl slow cancelAfter fuel rest
                  (mset res dir { ensure res dir with skipped := true })
                  (dir :: processed) := by
            simp [bfsScanLoop, hcan', hx]
          rw [hout]
          exact ih rest _ (dir :: processed)
            (EntriesOk_mset res dir _ hres ⟨hens.1, hens.2⟩)
        · cases hr : readDir fs dir with
          | none =>
            have hout : bfsScanLoop fs excl slow cancelAfter (fuel + 1)
                (dir :: rest) res processed
                = bfsScanLoop fs excl slow cancelAfter fuel rest
                    (mset res dir { ensure res dir with skipped := true })
                    (dir :: processed) := by
              simp [bfsScanLoop, hcan', hx, hr]
            rw [hout]
            exact ih rest _ (dir :: processed)
              (EntriesOk_mset res dir _ hres ⟨hens.1, hens.2⟩)
          | some ents =>
            have hse := scanEntries_preserves_ok dir slow ents (ensure res dir)
            have hout : bfsScanLoop fs excl slow cancelAfter (fuel + 1)
                (dir :: rest) res processed
                = bfsScanLoop fs excl slow cancelAfter fuel
                    (rest ++ (scanEntries dir slow ents (ensure res dir)).2)
                    (mset res dir
                      { (scanEntries dir slow ents (ensure res dir)).1 with
                        total :=
                          (scanEntries dir slow ents (ensure res dir)).1.size })
                    (dir :: processed) := by
              simp [bfsScanLoop, hcan', hx, hr]
            rw [hout]
            exact ih _ _ (dir :: processed)
              (EntriesOk_mset res dir _ hres
                ⟨hse.1.trans hens.1, hse.2.trans hens.2⟩)

/-- Helper: one aggregation step preserves `EntriesOk`. -/
theorem aggStep_entriesOk (m : FMap) (p : FPath) (hm : EntriesOk m) :
    EntriesOk (aggStep m p) := by
  cases hq : mget m p with
  | none => simpa [aggStep, hq] using hm
  | some fsRec =>
    by_cases hpar : parentDir p = p
    · simpa [aggStep, hq, hpar] using hm
    · have hens := ensure_ok m hm (parentDir p)
      have hred : aggStep m p = mset m (parentDir p)
          { ensure m (parentDir p) with
            total := (ensure m (parentDir p)).total + fsRec.total,
            fileCount := (ensure m (parentDir p)).fileCount + fsRec.fileCount,
            oldest := if (ensure m (parentDir p)).oldest = 0 ∨
                (fsRec.oldest ≠ 0 ∧
                  fsRec.oldest < (ensure m (parentDir p)).oldest)
              then fsRec.oldest else (ensure m (parentDir p)).oldest,
            newest := if fsRec.newest > (ensure m (parentDir p)).newest
              then fsRec.newest else (ensure m (parentDir p)).newest,
            fileTypes := ftMerge (ensure m (parentDir p)).fileTypes
              fsRec.fileTypes } := by
        simp [aggStep, hq, hpar]
      rw [hred]
      exact EntriesOk_mset m (parentDir p) _ hm
        ⟨hens.1, ftMerge_isSome _ _ hens.2⟩

/-- C9: the path-to-record map invariant — every key binds a record whose
`Path` equals the key and whose `FileTypes` map is allocated — holds for
the map `bfsScan` returns (records created while scanning) and is
preserved by `aggregateTotals` (parents created while aggregating). -/
theorem C9_map_invariant :
    (∀ (fs : FileSys) (root : FPath) (excl : List String) (slow : Nat)
        (cancelAfter : Option Nat) (fuel : Nat),
      EntriesOk (bfsScan fs root excl slow cancelAfter fuel).res) ∧
    (∀ m : FMap, EntriesOk m → EntriesOk (aggregateTotals m)) := by
  constructor
  · intro fs root excl slow cancelAfter fuel
    exact bfsScanLoop_entriesOk fs excl slow cancelAfter fuel [root] [] []
      (by intro e he; simp at he)
  · intro m hm
    unfold aggregateTotals
    generalize sortByDepth (mkeys m) = l
    induction l generalizing m with
    | nil => simpa using hm
    | cons q rest ih =>
      simpa [List.foldl_cons] using ih (aggStep m q) (aggStep_entriesOk m q hm)

/-- C9 witness: the invariant holds on the concrete scenario scan and its
aggregation. -/
theorem C9_map_invariant_witness :
    EntriesOk scanC8 ∧ EntriesOk (aggregateTotals scanC8) :=
  ⟨C9_map_invariant.1 fsC8 ["a"] [] 1000 none 10,
   C9_map_invariant.2 scanC8 (by decide)⟩

/-- Helper: a key has a record exactly when it is among the map's keys. -/
theorem mget_isSome_iff_mem_mkeys (m : FMap) (p : FPath) :
    (mget m p).isSome = true ↔ p ∈ mkeys m := by
  induction m with
  | nil =>
    simp only [mkeys, List.map_nil, List.not_mem_nil, iff_false]
    intro h
    exact absurd h (by simp [mget, List.find?])
  | cons e rest ih =>
    by_cases h : e.1 = p
    · have hbeq : (e.1 == p) = true := by simp [h]
      simp only [mget, List.find?, hbeq, Option.isSome_some, mkeys,
        List.map_cons, List.mem_cons, true_iff]
      exact Or.inl h.symm
    · have hbeq : (e.1 == p) = false := by simp [h]
      have hne : ¬ p = e.1 := fun hx => h hx.symm
      simp only [mget, List.find?, hbeq, mkeys, List.map_cons, List.mem_cons]
      rw [show (match rest.find? (fun e => e.1 == p) with
            | some e => some e.2
            | none => (none : Option FolderSize)) = mget rest p from rfl]
      rw [ih]
      exact (or_iff_right hne).symm

/-- Helper: the effect of one aggregation step on key presence: the step
for `q` (when `q` has a record and is not its own parent) makes exactly
`q`'s parent present, on top of the existing keys. -/
theorem mget_aggStep_isSome (m : FMap) (q x : FPath) :
    (mget (aggStep m q) x).isSome = true ↔
      (mget m x).isSome = true ∨
        ((mget m q).isSome = true ∧ parentDir q ≠ q ∧ x = parentDir q) := by
  cases hq : mget m q with
  | none => simp [aggStep, hq]
  | some fsRec =>
    by_cases hpar : parentDir q = q
    · simp [aggStep, hq, hpar]
    · have hred : aggStep m q = mset m (parentDir q)
          { ensure m (parentDir q) with
            total := (ensure m (parentDir q)).total + fsRec.total,
            fileCount := (ensure m (parentDir q)).fileCount + fsRec.fileCount,
            oldest := if (ensure m (parentDir q)).oldest = 0 ∨
                (fsRec.oldest ≠ 0 ∧
                  fsRec.oldest < (ensure m (parentDir q)).oldest)
              then fsRec.oldest else (ensure m (parentDir q)).oldest,
            newest := if fsRec.newest > (ensure m (parentDir q)).newest
              then fsRec.newest else (ensure m (parentDir q)).newest,
            fileTypes := ftMerge (ensure m (parentDir q)).fileTypes
              fsRec.fileTypes } := by
        simp [aggStep, hq, hpar]
      rw [hred, mget_mset]
      by_cases hx : x = parentDir q
      · simp [hx, hpar, hq]
      · simp [hx, hpar, hq]

/-- Helper: folding aggregation steps over paths that all have records adds
exactly the missing parents of those paths. -/
theorem foldl_aggStep_isSome (l : List FPath) :
    ∀ m : FMap, (∀ q ∈ l, (mget m q).isSome = true) →
    ∀ x : FPath, (mget (l.foldl aggStep m) x).isSome = true ↔
      (mget m x).isSome = true ∨
        ∃ q ∈ l, parentDir q ≠ q ∧ x = parentDir q := by
  induction l with
  | nil => intro m _ x; simp
  | cons q rest ih =>
    intro m hl x
    have hq : (mget m q).isSome = true := hl q (List.mem_cons_self q rest)
    have hrest : ∀ r ∈ rest, (mget (aggStep m q) r).isSome = true := by
      intro r hr
      rw [mget_aggStep_isSome]
      exact Or.inl (hl r (List.mem_cons_of_mem q hr))
    rw [List.foldl_cons, ih (aggStep m q) hrest x, mget_aggStep_isSome]
    constructor
    · rintro ((h | ⟨_, hne, hx⟩) | ⟨r, hr, hne, hx⟩)
      · exact Or.inl h
      · exact Or.inr ⟨q, List.mem_cons_self q rest, hne, hx⟩
      · exact Or.inr ⟨r, List.mem_cons_of_mem q hr, hne, hx⟩
    · rintro (h | ⟨r, hr, hne, hx⟩)
      · exact Or.inl (Or.inl h)
      · rcases List.mem_cons.mp hr with h1 | h2
        · subst h1; exact Or.inl (Or.inr ⟨hq, hne, hx⟩)
        · exact Or.inr ⟨r, h2, hne, hx⟩

/-- Helper: depth-ordered insertion preserves the elements. -/
theorem mem_insertByDepth (p x : FPath) (l : List FPath) :
    x ∈ insertByDepth p l ↔ x = p ∨ x ∈ l := by
  induction l with
  | nil => simp [insertByDepth]
  | cons q rest ih =>
    by_cases h : sepCount p > sepCount q
    · simp [insertByDepth, h]
    · simp only [insertByDepth, h, if_false, List.mem_cons, ih]
      tauto

/-- Helper: the depth sort preserves the elements. -/
theorem mem_sortByDepth (l : List FPath) (x : FPath) :
    x ∈ sortByDepth l ↔ x ∈ l := by
  induction l with
  | nil => simp [sortByDepth]
  | cons q rest ih =>
    show x ∈ insertByDepth q (sortByDepth rest) ↔ _
    rw [mem_insertByDepth, ih]
    simp

/-- C4 amended: `aggregateTotals` processes the snapshot of keys deepest
first, adding each record's cumulative fields into its immediate parent's
record; a parent missing from the record set is created on demand rather
than skipped, so the aggregated map's keys are exactly the input keys plus
the immediate parents of input keys (for paths that are not their own
parent). -/
theorem C4_amended_aggregate_keys (m : FMap) (x : FPath) :
    (mget (aggregateTotals m) x).isSome = true ↔
      (mget m x).isSome = true ∨
        ∃ q : FPath, (mget m q).isSome = true ∧ parentDir q ≠ q ∧
          x = parentDir q := by
  unfold aggregateTotals
  rw [foldl_aggStep_isSome (sortByDepth (mkeys m)) m
    (fun q hq => (mget_isSome_iff_mem_mkeys m q).mpr
      ((mem_sortByDepth (mkeys m) q).mp hq)) x]
  constructor
  · rintro (h | ⟨q, hq, hne, hx⟩)
    · exact Or.inl h
    · exact Or.inr ⟨q, (mget_isSome_iff_mem_mkeys m q).mpr
        ((mem_sortByDepth (mkeys m) q).mp hq), hne, hx⟩
  · rintro (h | ⟨q, hq, hne, hx⟩)
    · exact Or.inl h
    · exact Or.inr ⟨q, (mem_sortByDepth (mkeys m) q).mpr
        ((mget_isSome_iff_mem_mkeys m q).mp hq), hne, hx⟩

namespace Dedup

/-- Helper: a map write is visible to exactly its own key. -/
theorem dget_dset (m : DMap) (k : FPath) (v : DFolder) (p : FPath) :
    dget (dset m k v) p = if p = k then some v else dget m p := by
  induction m with
  | nil =>
    by_cases h : p = k
    · subst h; simp [dget, dset, List.find?]
    · simp only [dset, dget, List.find?]
      have : (k == p) = false := by
        simpa using fun hkp => h (by simp [hkp])
      simp [this, h]
  | cons e rest ih =>
    by_cases he : e.1 = k
    · have hbeq : (e.1 == k) = true := by simp [he]
      by_cases h : p = k
      · subst h
        simp [dset, hbeq, dget, List.find?, he]
      · have : (k == p) = false := by
          simpa using fun hkp => h (by simp [hkp])
        have he1p : (e.1 == p) = false := by simp [he, this]
        simp [dset, hbeq, dget, List.find?, this, h, he1p, he]
    · have hbeq : (e.1 == k) = false := by simp [he]
      by_cases hp : e.1 = p
      · have h : ¬ p = k := fun hx => he (by rw [hp, hx])
        simp [dset, hbeq, dget, List.find?, hp, h]
      · have he1p : (e.1 == p) = false := by simp [hp]
        simp only [dset, hbeq, Bool.false_eq_true, if_false]
        simp only [dget, List.find?, he1p]
        exact ih

/-- Helper: appending entries never hides an existing record. -/
theorem dget_append_of_some (m l : DMap) (p : FPath) (r : DFolder)
    (h : dget m p = some r) : dget (m ++ l) p = some r := by
  induction m with
  | nil => exact absurd h (by simp [dget, List.find?])
  | cons e rest ih =>
    by_cases hp : (e.1 == p) = true
    · simpa [dget, List.find?, hp] using h
    · have hp' : (e.1 == p) = false := by simpa using hp
      simp only [dget, List.find?, hp'] at h
      simpa [dget, List.find?, hp'] using ih h

/-- Helper: enqueueing children (which only inserts missing records) never
changes an existing record. -/
theorem enqueueChildren_preserves (dir : FPath) (ents : List DirEntry) :
    ∀ (acc : DMap × List FPath) (p : FPath) (r : DFolder),
      dget acc.1 p = some r →
      dget (ents.foldl
        (fun acc fi =>
          if fi.isDir then
            let sub := joinPath dir fi.name
            let m' := if (dget acc.1 sub).isSome then acc.1
                      else acc.1 ++ [(sub, newDFolder sub)]
            (m', acc.2 ++ [sub])
          else acc) acc).1 p = some r := by
  induction ents with
  | nil => intro acc p r h; exact h
  | cons fi rest ih =>
    intro acc p r h
    by_cases hd : fi.isDir = true
    · simp only [List.foldl_cons, hd, if_true]
      by_cases hs : (dget acc.1 (joinPath dir fi.name)).isSome = true
      · exact ih _ p r (by simpa [hs] using h)
      · have hs' : (dget acc.1 (joinPath dir fi.name)).isSome = false := by
          simpa using hs
        exact ih _ p r (by simp only [hs', Bool.false_eq_true, if_false]
                           exact dget_append_of_some _ _ p r h)
    · have hd' : fi.isDir = false := by simpa using hd
      simp only [List.foldl_cons, hd', Bool.false_eq_true, if_false]
      exact ih acc p r h

/-- Helper: any single-record rewrite that keeps the `Duplicate` flag when
hitting a marked path preserves `DupMarked`. -/
theorem DupMarked_dset (m : DMap) (d p : FPath) (v : DFolder)
    (hkeep : p = d → v.duplicate = true) (h : DupMarked m p) :
    DupMarked (dset m d v) p := by
  obtain ⟨r, hr, hdup⟩ := h
  by_cases hpd : p = d
  · exact ⟨v, by rw [dget_dset]; simp [hpd], hkeep hpd⟩
  · exact ⟨r, by rw [dget_dset]; simpa [hpd] using hr, hdup⟩

/-- Helper: the read stage rewrites only the dequeued directory's record,
keeping its `Duplicate` flag, and inserts only missing child records; so
marked duplicates stay marked. -/
theorem dRead_preserves_dup (slow : Nat) (fsys : FileSys) (s : DState)
    (dir p : FPath) (h : DupMarked s.res p) :
    DupMarked (dRead slow fsys s dir).1.res p := by
  obtain ⟨r, hr, hdup⟩ := h
  have hkeep : p = dir →
      (({ densure s.res dir with size := 0, skipped := true } : DFolder)).duplicate
        = true := by
    intro hpd; subst hpd
    show (densure s.res p).duplicate = true
    unfold densure; rw [hr]; exact hdup
  cases hread : readDir fsys dir with
  | none =>
    simp only [dRead, hread]
    exact DupMarked_dset s.res dir p _ hkeep ⟨r, hr, hdup⟩
  | some ents =>
    by_cases hskip : (dScanFiles slow ents 0).2 = true
    · simp only [dRead, hread, hskip, if_true]
      refine DupMarked_dset s.res dir p _ ?_ ⟨r, hr, hdup⟩
      intro hpd; subst hpd
      show (densure s.res p).duplicate = true
      unfold densure; rw [hr]; exact hdup
    · have hskip' : (dScanFiles slow ents 0).2 = false := by simpa using hskip
      simp only [dRead, hread, hskip', Bool.false_eq_true, if_false]
      have h1 : DupMarked (dset s.res dir
          ({ densure s.res dir with
             size := (dScanFiles slow ents 0).1,
             skipped := false })) p := by
        refine DupMarked_dset s.res dir p _ ?_ ⟨r, hr, hdup⟩
        intro hpd; subst hpd
        show (densure s.res p).duplicate = true
        unfold densure; rw [hr]; exact hdup
      obtain ⟨r', hr', hdup'⟩ := h1
      exact ⟨r', enqueueChildren_preserves dir ents _ p r' hr', hdup'⟩

end Dedup

namespace Dedup

/-- Helper: the read stage never touches the seen-set. -/
theorem dRead_seen (slow : Nat) (fsys : FileSys) (s : DState) (dir : FPath) :
    (dRead slow fsys s dir).1.seen = s.seen := by
  cases hread : readDir fsys dir with
  | none => simp [dRead, hread]
  | some ents =>
    by_cases h2 : (dScanFiles slow ents 0).2 = true
    · simp [dRead, hread, h2]
    · have h2' : (dScanFiles slow ents 0).2 = false := by simpa using h2
      simp [dRead, hread, h2']

/-- Helper: the read stage never touches existing records other than the
dequeued directory's, and keeps that record's `Duplicate` flag. -/
theorem dStep_net_eq (net : List FPath) (slow : Nat) (fsys : FileSys)
    (itab : IdentTab) (s : DState) (dir : FPath)
    (hnet : net.contains dir = true) :
    dStep net slow fsys itab s dir =
      ({ s with
         res := dset s.res dir { densure s.res dir with skipped := true } },
       [], DOutcome.net) := by
  have hnet' : dir ∈ net := by simpa using hnet
  simp [dStep, hnet']

/-- Helper: branch equation for an excluded directory. -/
theorem dStep_excl_eq (net : List FPath) (slow : Nat) (fsys : FileSys)
    (itab : IdentTab) (s : DState) (dir : FPath)
    (hnet : net.contains dir = false) (hexc : dExcluded dir = true) :
    dStep net slow fsys itab s dir =
      ({ s with
         res := dset s.res dir { densure s.res dir with skipped := true } },
       [], DOutcome.excl) := by
  have hnet' : ¬ dir ∈ net := by simpa using hnet
  simp [dStep, hnet', hexc]

/-- Helper: branch equation for an already-seen identity key: the record is
marked `Duplicate`, nothing is read, no child is enqueued, the seen-set and
byte counter are unchanged. -/
theorem dStep_dup_eq (net : List FPath) (slow : Nat) (fsys : FileSys)
    (itab : IdentTab) (s : DState) (dir : FPath) (k : Nat × Nat)
    (hnet : net.contains dir = false) (hexc : dExcluded dir = false)
    (hid : getDevInode itab dir = some k) (hseen : s.seen.contains k = true) :
    dStep net slow fsys itab s dir =
      ({ s with
         res := dset s.res dir { densure s.res dir with duplicate := true },
         dirCount := s.dirCount + 1 }, [], DOutcome.dup) := by
  have hnet' : ¬ dir ∈ net := by simpa using hnet
  have hseen' : k ∈ s.seen := by simpa using hseen
  simp [dStep, hnet', hexc, hid, hseen']

/-- Helper: branch equation for a fresh identity key: the key is recorded
as seen and the read stage runs. -/
theorem dStep_fresh_eq (net : List FPath) (slow : Nat) (fsys : FileSys)
    (itab : IdentTab) (s : DState) (dir : FPath) (k : Nat × Nat)
    (hnet : net.contains dir = false) (hexc : dExcluded dir = false)
    (hid : getDevInode itab dir = some k)
    (hseen : s.seen.contains k = false) :
    dStep net slow fsys itab s dir =
      ((dRead slow fsys { s with seen := k :: s.seen } dir).1,
       (dRead slow fsys { s with seen := k :: s.seen } dir).2,
       DOutcome.scanned) := by
  have hnet' : ¬ dir ∈ net := by simpa using hnet
  have hseen' : ¬ k ∈ s.seen := by simpa using hseen
  simp [dStep, hnet', hexc, hid, hseen']

/-- Helper: branch equation for an unsupported identity probe: the
duplicate check is bypassed and the read stage runs. -/
theorem dStep_none_eq (net : List FPath) (slow : Nat) (fsys : FileSys)
    (itab : IdentTab) (s : DState) (dir : FPath)
    (hnet : net.contains dir = false) (hexc : dExcluded dir = false)
    (hid : getDevInode itab dir = none) :
    dStep net slow fsys itab s dir =
      ((dRead slow fsys s dir).1, (dRead slow fsys s dir).2,
       DOutcome.scanned) := by
  have hnet' : ¬ dir ∈ net := by simpa using hnet
  simp [dStep, hnet', hexc, hid]

end Dedup

namespace Dedup

/-- Helper: unfolding one BFS iteration. -/
theorem dLoop_succ_cons (net : List FPath) (slow : Nat) (fsys : FileSys)
    (itab : IdentTab) (fuel : Nat) (dir : FPath) (rest : List FPath)
    (s : DState) (tr : List (FPath × DOutcome)) :
    dLoop net slow fsys itab (fuel + 1) (dir :: rest) s tr =
      dLoop net slow fsys itab fuel
        (rest ++ (dStep net slow fsys itab s dir).2.1)
        (dStep net slow fsys itab s dir).1
        ((dir, (dStep net slow fsys itab s dir).2.2) :: tr) := rfl

/-- Helper: the scan-loop invariant.  Along the whole run: (i) any two
traced read-stage directories with the same supported identity key are the
same path (each key is read at most once); (ii) every directory traced as a
duplicate holds a record marked `Duplicate` in the final map. -/
theorem dLoop_inv (net : List FPath) (slow : Nat) (fsys : FileSys)
    (itab : IdentTab) (fuel : Nat) :
    ∀ (queue : List FPath) (s : DState) (tr : List (FPath × DOutcome)),
    (∀ p k, (p, DOutcome.scanned) ∈ tr → getDevInode itab p = some k →
      k ∈ s.seen) →
    (∀ p₁ p₂ k, (p₁, DOutcome.scanned) ∈ tr → (p₂, DOutcome.scanned) ∈ tr →
      getDevInode itab p₁ = some k → getDevInode itab p₂ = some k →
      p₁ = p₂) →
    (∀ p, (p, DOutcome.dup) ∈ tr → DupMarked s.res p) →
    (∀ p₁ p₂ k,
      (p₁, DOutcome.scanned) ∈ (dLoop net slow fsys itab fuel queue s tr).2 →
      (p₂, DOutcome.scanned) ∈ (dLoop net slow fsys itab fuel queue s tr).2 →
      getDevInode itab p₁ = some k → getDevInode itab p₂ = some k →
      p₁ = p₂) ∧
    (∀ p, (p, DOutcome.dup) ∈ (dLoop net slow fsys itab fuel queue s tr).2 →
      DupMarked (dLoop net slow fsys itab fuel queue s tr).1.res p) := by
  induction fuel with
  | zero =>
    intro queue s tr h1 h2 h3
    have e : dLoop net slow fsys itab 0 queue s tr = (s, tr.reverse) := rfl
    rw [e]
    refine ⟨?_, ?_⟩
    · intro p₁ p₂ k hp1 hp2 hk1 hk2
      exact h2 p₁ p₂ k (List.mem_reverse.mp hp1) (List.mem_reverse.mp hp2)
        hk1 hk2
    · intro p hp
      exact h3 p (List.mem_reverse.mp hp)
  | succ fuel ih =>
    intro queue s tr h1 h2 h3
    cases queue with
    | nil =>
      have e : dLoop net slow fsys itab (fuel + 1) [] s tr
          = (s, tr.reverse) := rfl
      rw [e]
      refine ⟨?_, ?_⟩
      · intro p₁ p₂ k hp1 hp2 hk1 hk2
        exact h2 p₁ p₂ k (List.mem_reverse.mp hp1) (List.mem_reverse.mp hp2)
          hk1 hk2
      · intro p hp
        exact h3 p (List.mem_reverse.mp hp)
    | cons dir rest =>
      rw [dLoop_succ_cons]
      by_cases hnet : net.contains dir = true
      · rw [dStep_net_eq net slow fsys itab s dir hnet]
        refine ih _ _ _ ?_ ?_ ?_
        · intro p k hp hk
          rcases List.mem_cons.mp hp with hEq | hmem
          · simp at hEq
          · exact h1 p k hmem hk
        · intro p₁ p₂ k hp1 hp2 hk1 hk2
          rcases List.mem_cons.mp hp1 with hEq | hm1
          · simp at hEq
          · rcases List.mem_cons.mp hp2 with hEq | hm2
            · simp at hEq
            · exact h2 p₁ p₂ k hm1 hm2 hk1 hk2
        · intro p hp
          rcases List.mem_cons.mp hp with hEq | hmem
          · simp at hEq
          · obtain ⟨r, hr, hdup⟩ := h3 p hmem
            refine DupMarked_dset s.res dir p _ ?_ ⟨r, hr, hdup⟩
            intro hpd; subst hpd
            show (densure s.res p).duplicate = true
            unfold densure; rw [hr]; exact hdup
      · have hnet' : net.contains dir = false := by simpa using hnet
        by_cases hexc : dExcluded dir = true
        · rw [dStep_excl_eq net slow fsys itab s dir hnet' hexc]
          refine ih _ _ _ ?_ ?_ ?_
          · intro p k hp hk
            rcases List.mem_cons.mp hp with hEq | hmem
            · simp at hEq
            · exact h1 p k hmem hk
          · intro p₁ p₂ k hp1 hp2 hk1 hk2
            rcases List.mem_cons.mp hp1 with hEq | hm1
            · simp at hEq
            · rcases List.mem_cons.mp hp2 with hEq | hm2
              · simp at hEq
              · exact h2 p₁ p₂ k hm1 hm2 hk1 hk2
          · intro p hp
            rcases List.mem_cons.mp hp with hEq | hmem
            · simp at hEq
            · obtain ⟨r, hr, hdup⟩ := h3 p hmem
              refine DupMarked_dset s.res dir p _ ?_ ⟨r, hr, hdup⟩
              intro hpd; subst hpd
              show (densure s.res p).duplicate = true
              unfold densure; rw [hr]; exact hdup
        · have hexc' : dExcluded dir = false := by simpa using hexc
          cases hid : getDevInode itab dir with
          | some k =>
            by_cases hcont : s.seen.contains k = true
            · rw [dStep_dup_eq net slow fsys itab s dir k hnet' hexc' hid
                hcont]
              refine ih _ _ _ ?_ ?_ ?_
              · intro p k' hp hk
                rcases List.mem_cons.mp hp with hEq | hmem
                · simp at hEq
                · exact h1 p k' hmem hk
              · intro p₁ p₂ k' hp1 hp2 hk1 hk2
                rcases List.mem_cons.mp hp1 with hEq | hm1
                · simp at hEq
                · rcases List.mem_cons.mp hp2 with hEq | hm2
                  · simp at hEq
                  · exact h2 p₁ p₂ k' hm1 hm2 hk1 hk2
              · intro p hp
                rcases List.mem_cons.mp hp with hEq | hmem
                · have hpd : p = dir := by
                    simpa using congrArg Prod.fst hEq
                  subst hpd
                  exact ⟨{ densure s.res p with duplicate := true },
                    by rw [dget_dset]; simp, rfl⟩
                · obtain ⟨r, hr, hdup⟩ := h3 p hmem
                  exact DupMarked_dset s.res dir p _ (fun _ => rfl)
                    ⟨r, hr, hdup⟩
            · have hcont' : s.seen.contains k = false := by simpa using hcont
              rw [dStep_fresh_eq net slow fsys itab s dir k hnet' hexc' hid
                hcont']
              have hseen'' :
                  (dRead slow fsys { s with seen := k :: s.seen } dir).1.seen
                    = k :: s.seen :=
                dRead_seen slow fsys { s with seen := k :: s.seen } dir
              refine ih _ _ _ ?_ ?_ ?_
              · intro p k' hp hk
                rw [hseen'']
                rcases List.mem_cons.mp hp with hEq | hmem
                · have hpd : p = dir := by
                    simpa using congrArg Prod.fst hEq
                  subst hpd
                  rw [hid] at hk
                  exact List.mem_cons.mpr (Or.inl (by simpa using hk.symm))
                · exact List.mem_cons.mpr (Or.inr (h1 p k' hmem hk))
              · intro p₁ p₂ k' hp1 hp2 hk1 hk2
                rcases List.mem_cons.mp hp1 with hEq1 | hm1
                · have hpd1 : p₁ = dir := by
                    simpa using congrArg Prod.fst hEq1
                  rcases List.mem_cons.mp hp2 with hEq2 | hm2
                  · have hpd2 : p₂ = dir := by
                      simpa using congrArg Prod.fst hEq2
                    rw [hpd1, hpd2]
                  · exfalso
                    have hkk : k' = k := by
                      rw [hpd1, hid] at hk1
                      simpa using hk1.symm
                    have : k ∈ s.seen := by
                      rw [← hkk]; exact h1 p₂ k' hm2 hk2
                    have : s.seen.contains k = true := by simpa using this
                    rw [this] at hcont'
                    exact Bool.noConfusion hcont'
                · rcases List.mem_cons.mp hp2 with hEq2 | hm2
                  · exfalso
                    have hpd2 : p₂ = dir := by
                      simpa using congrArg Prod.fst hEq2
                    have hkk : k' = k := by
                      rw [hpd2, hid] at hk2
                      simpa using hk2.symm
                    have : k ∈ s.seen := by
                      rw [← hkk]; exact h1 p₁ k' hm1 hk1
                    have : s.seen.contains k = true := by simpa using this
                    rw [this] at hcont'
                    exact Bool.noConfusion hcont'
                  · exact h2 p₁ p₂ k' hm1 hm2 hk1 hk2
              · intro p hp
                rcases List.mem_cons.mp hp with hEq | hmem
                · simp at hEq
                · exact dRead_preserves_dup slow fsys
                    { s with seen := k :: s.seen } dir p (h3 p hmem)
          | none =>
            rw [dStep_none_eq net slow fsys itab s dir hnet' hexc' hid]
            refine ih _ _ _ ?_ ?_ ?_
            · intro p k' hp hk
              rw [dRead_seen]
              rcases List.mem_cons.mp hp with hEq | hmem
              · exfalso
                have hpd : p = dir := by
                  simpa using congrArg Prod.fst hEq
                rw [hpd, hid] at hk
                exact Option.noConfusion hk
              · exact h1 p k' hmem hk
            · intro p₁ p₂ k' hp1 hp2 hk1 hk2
              rcases List.mem_cons.mp hp1 with hEq1 | hm1
              · exfalso
                have hpd1 : p₁ = dir := by
                  simpa using congrArg Prod.fst hEq1
                rw [hpd1, hid] at hk1
                exact Option.noConfusion hk1
              · rcases List.mem_cons.mp hp2 with hEq2 | hm2
                · exfalso
                  have hpd2 : p₂ = dir := by
                    simpa using congrArg Prod.fst hEq2
                  rw [hpd2, hid] at hk2
                  exact Option.noConfusion hk2
                · exact h2 p₁ p₂ k' hm1 hm2 hk1 hk2
            · intro p hp
              rcases List.mem_cons.mp hp with hEq | hmem
              · simp at hEq
              · exact dRead_preserves_dup slow fsys s dir p (h3 p hmem)

end Dedup

/-- C3: in the identity-probing scan, (i) any two directories that reached
the read stage with the same supported `(dev, inode)` key are the same path
— each physical directory's entries are read, and its bytes counted, at
most once per scan, however many paths lead to it; (ii) every directory
dequeued while its key was already seen is marked `Duplicate` in the final
record set; (iii) processing such a directory enqueues no children (its
subtree is not traversed), reads nothing, and leaves the seen-set and the
accumulated byte counter unchanged, so it can contribute nothing further to
any total. -/
theorem C3_duplicate_key_read_once :
    (∀ (net : List FPath) (slow : Nat) (fsys : FileSys)
        (itab : Dedup.IdentTab) (root : FPath) (fuel : Nat)
        (p₁ p₂ : FPath) (k : Nat × Nat),
      (p₁, Dedup.DOutcome.scanned)
          ∈ (Dedup.bfsComputeSizes net slow fsys itab root fuel).2 →
      (p₂, Dedup.DOutcome.scanned)
          ∈ (Dedup.bfsComputeSizes net slow fsys itab root fuel).2 →
      Dedup.getDevInode itab p₁ = some k →
      Dedup.getDevInode itab p₂ = some k → p₁ = p₂) ∧
    (∀ (net : List FPath) (slow : Nat) (fsys : FileSys)
        (itab : Dedup.IdentTab) (root : FPath) (fuel : Nat) (p : FPath),
      (p, Dedup.DOutcome.dup)
          ∈ (Dedup.bfsComputeSizes net slow fsys itab root fuel).2 →
      Dedup.DupMarked
        (Dedup.bfsComputeSizes net slow fsys itab root fuel).1.res p) ∧
    (∀ (net : List FPath) (slow : Nat) (fsys : FileSys)
        (itab : Dedup.IdentTab) (s : Dedup.DState) (dir : FPath)
        (k : Nat × Nat),
      net.contains dir = false → Dedup.dExcluded dir = false →
      Dedup.getDevInode itab dir = some k → s.seen.contains k = true →
      Dedup.dStep net slow fsys itab s dir =
        ({ s with
           res := Dedup.dset s.res dir
             { Dedup.densure s.res dir with duplicate := true },
           dirCount := s.dirCount + 1 }, [], Dedup.DOutcome.dup)) := by
  refine ⟨?_, ?_, ?_⟩
  · intro net slow fsys itab root fuel p₁ p₂ k hp1 hp2 hk1 hk2
    exact (Dedup.dLoop_inv net slow fsys itab fuel [root] _ []
      (fun p k h => absurd h (List.not_mem_nil _))
      (fun p₁ p₂ k h _ _ _ => absurd h (List.not_mem_nil _))
      (fun p h => absurd h (List.not_mem_nil _))).1 p₁ p₂ k hp1 hp2 hk1 hk2
  · intro net slow fsys itab root fuel p hp
    exact (Dedup.dLoop_inv net slow fsys itab fuel [root] _ []
      (fun p k h => absurd h (List.not_mem_nil _))
      (fun p₁ p₂ k h _ _ _ => absurd h (List.not_mem_nil _))
      (fun p h => absurd h (List.not_mem_nil _))).2 p hp
  · intro net slow fsys itab s dir k hnet hexc hid hseen
    exact Dedup.dStep_dup_eq net slow fsys itab s dir k hnet hexc hid hseen

/-- C3 witness: the hard-link scenario (`/a/b` and `/a/c` share device 1,
inode 5): `/a/b` is read, `/a/c` is traced and marked as a duplicate, and
the duplicate step neither enqueues children nor changes the byte
counter. -/
theorem C3_duplicate_key_read_once_witness :
    ((["a","b"], Dedup.DOutcome.scanned)
        ∈ (Dedup.bfsComputeSizes [] 100 fsD itabD ["a"] 10).2 ∧
      (["a","b"] : FPath) = ["a","b"]) ∧
    Dedup.DupMarked (Dedup.bfsComputeSizes [] 100 fsD itabD ["a"] 10).1.res
      ["a","c"] ∧
    Dedup.dStep [] 100 fsD itabD ⟨[], [(1, 5)], 0, 0⟩ ["a","c"]
      = (⟨[(["a","c"],
            { path := ["a","c"], size := 0, skipped := false,
              duplicate := true })], [(1, 5)], 1, 0⟩, [],
         Dedup.DOutcome.dup) := by
  refine ⟨⟨by decide, ?_⟩, ?_, ?_⟩
  · exact C3_duplicate_key_read_once.1 [] 100 fsD itabD ["a"] 10
      ["a","b"] ["a","b"] (1, 5) (by decide) (by decide) (by decide)
      (by decide)
  · exact C3_duplicate_key_read_once.2.1 [] 100 fsD itabD ["a"] 10
      ["a","c"] (by decide)
  · exact (C3_duplicate_key_read_once.2.2 [] 100 fsD itabD
      ⟨[], [(1, 5)], 0, 0⟩ ["a","c"] (1, 5) (by decide) (by decide)
      (by decide) (by decide)).trans (by decide)

/-- Helper: with enough fuel, `log2Fuel` yields a true lower bound:
`2 ^ log2Fuel fuel n ≤ n`. -/
theorem log2Fuel_le : ∀ (fuel n : Nat), 1 ≤ n → n ≤ fuel →
    2 ^ log2Fuel fuel n ≤ n := by
  intro fuel
  induction fuel with
  | zero => intro n h1 h2; omega
  | succ fuel ih =>
    intro n h1 h2
    by_cases h : 2 ≤ n
    · have ih' := ih (n / 2) (by omega) (by omega)
      simp only [log2Fuel]
      rw [if_pos h]
      calc 2 ^ (log2Fuel fuel (n / 2) + 1)
          = 2 ^ log2Fuel fuel (n / 2) * 2 := by ring
        _ ≤ (n / 2) * 2 := by omega
        _ ≤ n := by omega
    · have hn : n = 1 := by omega
      subst hn
      simp [log2Fuel]

/-- Helper: `2 ^ natLog2 n ≤ n` for positive `n`. -/
theorem natLog2_le_self (n : Nat) (h : 1 ≤ n) : 2 ^ natLog2 n ≤ n :=
  log2Fuel_le n n h (Nat.le_refl n)

/-- Helper: rounding a fraction with denominator one is exact. -/
theorem rheFrac_one (x : Nat) : rheFrac x 1 = x := by
  simp [rheFrac, Nat.mod_one, Nat.div_one]

/-- Helper: on a positive integer below `2^53`, the binary64 conversion is
exact: significand `a * 2^(52 - log2 a)` at exponent `log2 a`. -/
theorem floatOfDec_int (a : Nat) (h1 : 1 ≤ a) (h2 : a < 2 ^ 53) :
    floatOfDec a 0 = (a * 2 ^ (52 - natLog2 a), (natLog2 a : Int)) := by
  have hLle : natLog2 a ≤ 52 := by
    have hle := natLog2_le_self a h1
    have : 2 ^ natLog2 a < 2 ^ 53 := Nat.lt_of_le_of_lt hle h2
    have := (Nat.pow_lt_pow_iff_right (by norm_num : 1 < 2)).mp this
    omega
  have hlog1 : natLog2 (10 ^ 0) = 0 := by decide
  have he0 : ((natLog2 a : Int) - (natLog2 (10 ^ 0) : Int))
      = (natLog2 a : Int) := by
    rw [hlog1]; simp
  have hpow : pow2LeDec ((natLog2 a : Int) - (natLog2 (10 ^ 0) : Int)) a 0
      = true := by
    rw [he0]
    unfold pow2LeDec
    rw [if_pos (by omega : (0 : Int) ≤ (natLog2 a : Int))]
    have htn : ((natLog2 a : Int)).toNat = natLog2 a := by omega
    rw [htn]
    simpa using natLog2_le_self a h1
  have hExp : decExp a 0 = (natLog2 a : Int) := by
    simp only [decExp]
    rw [hpow, if_pos rfl, he0]
  simp only [floatOfDec]
  rw [if_neg (by omega : ¬ a = 0), hExp]
  rw [if_pos (by omega : (0 : Int) ≤ 52 - (natLog2 a : Int))]
  have htn : ((52 : Int) - (natLog2 a : Int)).toNat = 52 - natLog2 a := by
    omega
  rw [htn]
  simp [rheFrac_one]

/-- Helper: truncating `a * 2^(52-L) * 2^(L-52+k)` recovers `a * 2^k`
exactly when `L ≤ 52`. -/
theorem truncScaled_exact (a k L : Nat) (hL : L ≤ 52) :
    truncScaled (a * 2 ^ (52 - L)) ((L : Int) - 52 + (k : Int))
      = a * 2 ^ k := by
  set u : Nat := 52 - L with hu
  have ht : (L : Int) - 52 + (k : Int) = (k : Int) - (u : Int) := by omega
  rw [ht]
  unfold truncScaled
  by_cases hk : u ≤ k
  · rw [if_pos (by omega : (0 : Int) ≤ (k : Int) - (u : Int))]
    have htn : ((k : Int) - (u : Int)).toNat = k - u := by omega
    have hexp : u + (k - u) = k := by omega
    rw [htn, Nat.mul_assoc, ← Nat.pow_add, hexp]
  · rw [if_neg (by omega : ¬ (0 : Int) ≤ (k : Int) - (u : Int))]
    have htn : (-((k : Int) - (u : Int))).toNat = u - k := by omega
    rw [htn]
    have hsplit : a * 2 ^ u = a * 2 ^ k * 2 ^ (u - k) := by
      have hexp : k + (u - k) = u := by omega
      rw [Nat.mul_assoc, ← Nat.pow_add, hexp]
    rw [hsplit]
    exact Nat.mul_div_cancel _ (Nat.pos_pow_of_pos _ (by norm_num))

/-- C10 amended: `parseSize` errors exactly when the trimmed, upper-cased
input fails the pattern `^([0-9]*\.?[0-9]+)\s*([KMGTP]?)B?$` — equivalently
exactly when the exact-arithmetic reading errors; when the accepted number
group is a plain integer below `2^53` the binary64 value is the number
itself, so the result is the claim's exact product `a * 2^k` whenever that
product fits in `int64`, and the implementation-defined out-of-range
conversion (`undef`) when it does not — while the claimed reading always
returns the exact product. -/
theorem C10_amended_parse_value (s : String) :
    (parseSize s = SizeOut.err ↔ parseSizeClaimed s = none) ∧
    (∀ a k : Nat,
      matchSize (trimSpace (upperL s.data)) = some ((a, 0), k) →
      a < 2 ^ 53 →
      parseSize s =
        (if a * 2 ^ k < 2 ^ 63 then SizeOut.ok ((a * 2 ^ k : Nat) : Int)
         else SizeOut.undef) ∧
      parseSizeClaimed s = some ((a * 2 ^ k : Nat) : Int)) := by
  constructor
  · cases h : matchSize (trimSpace (upperL s.data)) with
    | none => simp [parseSize, parseSizeClaimed, h]
    | some qk =>
      simp only [parseSize, parseSizeClaimed, h]
      constructor
      · intro hc
        revert hc
        split <;> simp
      · intro hc
        simp at hc
  · intro a k hm h53
    have htr : truncScaled (floatOfDec a 0).1
        ((floatOfDec a 0).2 - 52 + (k : Int)) = a * 2 ^ k := by
      by_cases ha : a = 0
      · subst ha
        have hf : floatOfDec 0 0 = (0, 0) := by simp [floatOfDec]
        rw [hf]
        unfold truncScaled
        split <;> simp
      · have h1 : 1 ≤ a := by omega
        have hLle : natLog2 a ≤ 52 := by
          have hle := natLog2_le_self a h1
          have hlt : 2 ^ natLog2 a < 2 ^ 53 := Nat.lt_of_le_of_lt hle h53
          have := (Nat.pow_lt_pow_iff_right (by norm_num : 1 < 2)).mp hlt
          omega
        rw [floatOfDec_int a h1 h53]
        exact truncScaled_exact a k (natLog2 a) hLle
    constructor
    · simp only [parseSize, hm, htr]
    · simp [parseSizeClaimed, hm]

set_option maxRecDepth 8000 in
/-- C10 amended, witness: the accepted input `"100G"` (plain integer, unit
G, product inside `int64`) yields the exact product, and `"8192P"` (product
exactly `2^63`, outside `int64`) yields the implementation-defined
marker. -/
theorem C10_amended_parse_value_witness :
    matchSize (trimSpace (upperL "100G".data)) = some ((100, 0), 30) ∧
    matchSize (trimSpace (upperL "8192P".data)) = some ((8192, 0), 50) ∧
    parseSize "100G" = SizeOut.ok 107374182400 ∧
    parseSize "8192P" = SizeOut.undef := by
  refine ⟨by decide, by decide, ?_, ?_⟩
  · have h :=
      ((C10_amended_parse_value "100G").2 100 30 (by decide) (by norm_num)).1
    rw [h, if_pos (by norm_num)]
    norm_num
  · have h :=
      ((C10_amended_parse_value "8192P").2 8192 50 (by decide) (by norm_num)).1
    rw [h, if_neg (by norm_num)]
